import Mathlib

/-!
# Verification of the CLiQR acquisition/storage pipeline and event-detection engine

This file gives a shallow embedding in Lean 4 of the core algorithms of the
CLiQR repository and proves (or refutes) the frozen specification claims
about them.

Embedded components:

* `src/recording/recorder.py` (`SensorRecorder`): the acquisition loop
  (`record_sensors`) with its per-sensor ring buffer (a `deque` with
  `maxlen = HISTORY_SIZE`), the initial dataset creation
  (`_write_initial_data`), the chunked append (`_append_data`), and the
  cycle-metadata writer (`write_sensor_metadata`).
* `src/data_analysis.py`: the recording-window resolution of `filter_data`,
  the consumed-volume computation, the threshold-scan detector
  (`basic_algorithm`) and the envelope detector (`hilbert_algorithm`).

Machine floats of the original code are modelled as `ℚ`; numpy integer
arrays as `List ℤ` / `List ℕ`; HDF5 groups of scalar datasets as
association lists `List (String × ℚ)`; resizable HDF5 datasets as `List ℚ`.
Numerical filtering (scipy `butter`/`filtfilt`/`hilbert`) is kept abstract:
the filter functions and the envelope appear as parameters of the
definitions, which is faithful for the structural/order-theoretic claims
proved about them.
-/

/-! ## The acquisition loop (`SensorRecorder.record_sensors`)

`HISTORY_SIZE` is the flush cadence from `utils/state.py`.

The recording loop keeps, per sensor, a `deque(maxlen=HISTORY_SIZE)` of
timestamps and one of capacitance values.  Every iteration appends one
sample to each deque, then (before incrementing the loop counter):

* if `loop_counter == HISTORY_SIZE` it creates the on-disk datasets from
  the current deque contents (`_write_initial_data`);
* else if `loop_counter > 0 && loop_counter % HISTORY_SIZE == 0` it resizes
  the datasets to `tmp_ctr + HISTORY_SIZE` (where
  `tmp_ctr = loop_counter - HISTORY_SIZE`) and writes the deque contents at
  offset `tmp_ctr` (`_append_data`).

All sensors' buffers evolve identically and independently, one sample per
iteration, so the state below models a single sensor's time (or
capacitance) array driven by an abstract per-iteration sample `stream`.
`stop()` merely clears the `recording` flag, which the loop tests at the
top of each iteration: a session that stops after `m` completed iterations
ends in state `recordRun stream m`, and nothing runs after the loop.
-/

def HISTORY_SIZE : ℕ := 100

/-- One sensor's recorder state: the in-memory deque (`buf`), the on-disk
resizable dataset (`disk`, `none` before `_write_initial_data` creates it),
and the scheduler's `loop_counter`. -/
structure RecState where
  buf : List ℚ
  disk : Option (List ℚ)
  counter : ℕ
  deriving Repr, DecidableEq

/-- `deque(maxlen=cap).append(x)`: append, evicting from the left on
overflow. -/
def dequeAppend (cap : ℕ) (buf : List ℚ) (x : ℚ) : List ℚ :=
  let b := buf ++ [x]
  if cap < b.length then b.drop (b.length - cap) else b

/-- `dataset.resize((m,))` on an HDF5 resizable dataset: truncate or
zero-extend to length `m`. -/
def h5resize (l : List ℚ) (m : ℕ) : List ℚ :=
  l.take m ++ List.replicate (m - l.length) 0

/-- `dataset[i:i+len(v)] = v`: overwrite a slice in place. -/
def sliceAssign (l : List ℚ) (i : ℕ) (v : List ℚ) : List ℚ :=
  l.take i ++ v ++ l.drop (i + v.length)

/-- One iteration of the `while self.recording` loop of `record_sensors`,
restricted to one sensor and one of its two arrays: append the freshly
read sample `x` to the deque, run the flush logic on the pre-increment
`loop_counter`, increment the counter. -/
def recordStep (x : ℚ) (s : RecState) : RecState where
  buf := dequeAppend HISTORY_SIZE s.buf x
  disk :=
    if s.counter = HISTORY_SIZE then
      -- `_write_initial_data`: create the dataset from the deque contents
      some (dequeAppend HISTORY_SIZE s.buf x)
    else if 0 < s.counter ∧ s.counter % HISTORY_SIZE = 0 then
      -- `_append_data`: resize to `tmp_ctr + HISTORY_SIZE` and write the
      -- deque contents at offset `tmp_ctr = loop_counter - HISTORY_SIZE`
      s.disk.map (fun d =>
        sliceAssign (h5resize d ((s.counter - HISTORY_SIZE) + HISTORY_SIZE))
          (s.counter - HISTORY_SIZE) (dequeAppend HISTORY_SIZE s.buf x))
    else s.disk
  counter := s.counter + 1

/-- State of one sensor's array after `m` completed loop iterations, where
`stream k` is the sample captured in iteration `k` (the loop counter is `k`
while iteration `k` runs). -/
def recordRun (stream : ℕ → ℚ) : ℕ → RecState
  | 0 => ⟨[], none, 0⟩
  | m + 1 => recordStep (stream m) (recordRun stream m)

/-- On-disk sample count (0 while the dataset does not exist yet). -/
def diskLen (s : RecState) : ℕ :=
  match s.disk with
  | none => 0
  | some d => d.length

lemma dequeAppend_of_length_lt {cap : ℕ} {buf : List ℚ} {x : ℚ}
    (h : buf.length + 1 ≤ cap) : dequeAppend cap buf x = buf ++ [x] := by
  simp only [dequeAppend, List.length_append, List.length_singleton]
  rw [if_neg (by omega)]

lemma dequeAppend_of_length_eq {cap : ℕ} {buf : List ℚ} {x : ℚ}
    (hpos : 0 < cap) (h : buf.length = cap) :
    dequeAppend cap buf x = buf.drop 1 ++ [x] := by
  have h1 : cap < (buf ++ [x]).length := by simp [h]
  have h2 : (buf ++ [x]).length - cap = 1 := by simp [h]
  simp only [dequeAppend, if_pos h1, h2]
  rw [List.drop_append_of_le_length (by omega)]

/-- Full characterization of the recorder state after `m` completed
iterations: the loop counter equals `m`; the deque holds the last
`min m HISTORY_SIZE` samples; the dataset is absent until the first flush
(which runs inside iteration `HISTORY_SIZE`) and afterwards holds exactly
the samples of iterations `1 .. HISTORY_SIZE * ((m-1) / HISTORY_SIZE)`, in
order.  In particular the sample of iteration `0` is evicted from the
deque before the first flush and never reaches the disk. -/
lemma recordRun_spec (stream : ℕ → ℚ) (m : ℕ) :
    (recordRun stream m).counter = m ∧
    (recordRun stream m).buf =
      (List.range' (m - min m HISTORY_SIZE) (min m HISTORY_SIZE)).map stream ∧
    (recordRun stream m).disk =
      (if m < HISTORY_SIZE + 1 then none
       else some ((List.range' 1 (HISTORY_SIZE * ((m - 1) / HISTORY_SIZE))).map stream)) := by
  have hN : 0 < HISTORY_SIZE := by decide
  induction m with
  | zero => exact ⟨rfl, by simp [recordRun], by simp [recordRun, HISTORY_SIZE]⟩
  | succ m ih =>
    obtain ⟨hc, hb, hd⟩ := ih
    have hblen : (recordRun stream m).buf.length = min m HISTORY_SIZE := by
      rw [hb]; simp
    -- the deque after the append of iteration m
    have hbuf' : dequeAppend HISTORY_SIZE (recordRun stream m).buf (stream m) =
        (List.range' (m + 1 - min (m + 1) HISTORY_SIZE) (min (m + 1) HISTORY_SIZE)).map stream := by
      rcases lt_or_ge m HISTORY_SIZE with hm | hm
      · rw [dequeAppend_of_length_lt (by omega)]
        have h0 : m - min m HISTORY_SIZE = 0 := by omega
        have h1 : min m HISTORY_SIZE = m := by omega
        have h2 : m + 1 - min (m + 1) HISTORY_SIZE = 0 := by omega
        have h3 : min (m + 1) HISTORY_SIZE = m + 1 := by omega
        rw [hb, h0, h1, h2, h3, List.range'_concat]
        simp
      · rw [dequeAppend_of_length_eq hN (by omega)]
        have h1 : min m HISTORY_SIZE = HISTORY_SIZE := by omega
        have h2 : min (m + 1) HISTORY_SIZE = HISTORY_SIZE := by omega
        rw [hb, h1, h2]
        have hcons : List.range' (m - HISTORY_SIZE) HISTORY_SIZE =
            (m - HISTORY_SIZE) :: List.range' (m - HISTORY_SIZE + 1) (HISTORY_SIZE - 1) := by
          have h := List.range'_succ (m - HISTORY_SIZE) (HISTORY_SIZE - 1) 1
          rw [show HISTORY_SIZE - 1 + 1 = HISTORY_SIZE from by omega] at h
          exact h
        have hsnoc : List.range' (m - HISTORY_SIZE + 1) HISTORY_SIZE =
            List.range' (m - HISTORY_SIZE + 1) (HISTORY_SIZE - 1) ++ [m] := by
          have h := @List.range'_concat 1 (m - HISTORY_SIZE + 1) (HISTORY_SIZE - 1)
          rw [show HISTORY_SIZE - 1 + 1 = HISTORY_SIZE from by omega,
            show m - HISTORY_SIZE + 1 + 1 * (HISTORY_SIZE - 1) = m from by omega] at h
          exact h
        rw [hcons, show m + 1 - HISTORY_SIZE = m - HISTORY_SIZE + 1 from by omega, hsnoc]
        simp
    refine ⟨by simp [recordRun, recordStep, hc], by simp [recordRun, recordStep, hbuf'], ?_⟩
    show (if (recordRun stream m).counter = HISTORY_SIZE then _ else _) = _
    rcases Nat.lt_trichotomy m HISTORY_SIZE with hm | hm | hm
    · -- before the first flush: no dataset yet
      rw [if_neg (by omega : ¬(recordRun stream m).counter = HISTORY_SIZE),
        if_neg (by rw [hc]; rintro ⟨h0, hmod⟩; simp only [HISTORY_SIZE] at *; omega), hd,
        if_pos (by omega), if_pos (by omega)]
    · -- iteration HISTORY_SIZE: `_write_initial_data` creates the dataset
      rw [if_pos (by omega), hbuf']
      have h1 : ¬ m + 1 < HISTORY_SIZE + 1 := by omega
      rw [if_neg h1]
      have h2 : HISTORY_SIZE * ((m + 1 - 1) / HISTORY_SIZE) = HISTORY_SIZE := by
        subst hm; rw [Nat.add_sub_cancel, Nat.div_self hN, Nat.mul_one]
      have h3 : m + 1 - min (m + 1) HISTORY_SIZE = 1 := by omega
      have h4 : min (m + 1) HISTORY_SIZE = HISTORY_SIZE := by omega
      rw [h2, h3, h4]
    · -- later iterations: flush exactly when the counter divides evenly
      rw [if_neg (by omega : ¬(recordRun stream m).counter = HISTORY_SIZE)]
      by_cases hmod : m % HISTORY_SIZE = 0
      · -- `_append_data`: the batch lands at offset m - HISTORY_SIZE
        rw [if_pos (by rw [hc]; exact ⟨by omega, hmod⟩)]
        rw [hd, if_neg (by omega), Option.map_some']
        have hj : HISTORY_SIZE * ((m - 1) / HISTORY_SIZE) = m - HISTORY_SIZE := by
          simp only [HISTORY_SIZE] at *; omega
        rw [hj]
        have hdlen : ((List.range' 1 (m - HISTORY_SIZE)).map stream).length = m - HISTORY_SIZE := by
          simp
        have hctr : (recordRun stream m).counter - HISTORY_SIZE = m - HISTORY_SIZE := by
          rw [hc]
        rw [hctr]
        have hresize : h5resize ((List.range' 1 (m - HISTORY_SIZE)).map stream)
            (m - HISTORY_SIZE + HISTORY_SIZE) =
            (List.range' 1 (m - HISTORY_SIZE)).map stream ++ List.replicate HISTORY_SIZE 0 := by
          unfold h5resize
          rw [List.take_of_length_le (by rw [hdlen]; omega), hdlen]
          congr 2
          omega
        rw [hresize, hbuf']
        unfold sliceAssign
        have h4 : min (m + 1) HISTORY_SIZE = HISTORY_SIZE := by omega
        rw [h4, show m + 1 - HISTORY_SIZE = m - HISTORY_SIZE + 1 from by omega]
        have hlen2 : ((List.range' (m - HISTORY_SIZE + 1) HISTORY_SIZE).map stream).length
            = HISTORY_SIZE := by simp
        rw [hlen2]
        have htake : (((List.range' 1 (m - HISTORY_SIZE)).map stream)
              ++ List.replicate HISTORY_SIZE (0:ℚ)).take (m - HISTORY_SIZE) =
            (List.range' 1 (m - HISTORY_SIZE)).map stream := by
          rw [List.take_append_of_le_length (by rw [hdlen]),
            List.take_of_length_le (by rw [hdlen])]
        have hdrop : (((List.range' 1 (m - HISTORY_SIZE)).map stream)
              ++ List.replicate HISTORY_SIZE (0:ℚ)).drop (m - HISTORY_SIZE + HISTORY_SIZE) = [] := by
          apply List.drop_eq_nil_of_le
          rw [List.length_append, hdlen]
          simp
        rw [htake, hdrop, List.append_nil]
        rw [if_neg (by omega : ¬ m + 1 < HISTORY_SIZE + 1)]
        have hcount : HISTORY_SIZE * ((m + 1 - 1) / HISTORY_SIZE) = m := by
          simp only [HISTORY_SIZE] at *; omega
        have hcat : List.range' 1 (m - HISTORY_SIZE) ++
            List.range' (m - HISTORY_SIZE + 1) HISTORY_SIZE = List.range' 1 m := by
          have h := List.range'_append 1 (m - HISTORY_SIZE) HISTORY_SIZE 1
          simp only [Nat.one_mul] at h
          rw [show 1 + (m - HISTORY_SIZE) = m - HISTORY_SIZE + 1 from by omega] at h
          rw [h]
          congr 1
          omega
        rw [hcount, ← List.map_append, hcat]
      · -- no flush this iteration
        rw [if_neg (by rw [hc]; rintro ⟨h0, hmod'⟩; exact hmod hmod'), hd,
          if_neg (by omega), if_neg (by omega)]
        have : (m - 1) / HISTORY_SIZE = (m + 1 - 1) / HISTORY_SIZE := by
          simp only [HISTORY_SIZE] at *; omega
        rw [this]

/-- Claim C2: for every sensor and every flush (initial creation or
append), immediately after the flush the length of the on-disk `time_data`
and `cap_data` arrays equals the scheduler's loop counter at flush time
(`k`), and an append batch is written at offset `k - HISTORY_SIZE`: the
dataset after the flush is the pre-flush dataset (of length
`k - HISTORY_SIZE`) followed by the flushed buffer.  `tS`/`cS` are the
per-iteration samples feeding the time and capacitance arrays; a flush
happens inside iteration `k` exactly when `0 < k` and
`k % HISTORY_SIZE = 0`. -/
theorem C2_flush_invariant (tS cS : ℕ → ℚ) (k : ℕ) (hk0 : 0 < k)
    (hk : k % HISTORY_SIZE = 0) :
    diskLen (recordRun tS (k + 1)) = k ∧ diskLen (recordRun cS (k + 1)) = k ∧
    (∀ d0, (recordRun tS k).disk = some d0 →
      d0.length = k - HISTORY_SIZE ∧
      (recordRun tS (k + 1)).disk = some (d0 ++ (recordRun tS (k + 1)).buf)) := by
  have hkN : HISTORY_SIZE ≤ k := by
    rcases Nat.lt_or_ge k HISTORY_SIZE with h | h
    · rw [Nat.mod_eq_of_lt h] at hk; omega
    · exact h
  have hdiv : HISTORY_SIZE * ((k + 1 - 1) / HISTORY_SIZE) = k := by
    simp only [HISTORY_SIZE] at *; omega
  obtain ⟨hc1, hb1, hd1⟩ := recordRun_spec tS (k + 1)
  obtain ⟨hc2, hb2, hd2⟩ := recordRun_spec cS (k + 1)
  obtain ⟨hc0, hb0, hd0⟩ := recordRun_spec tS k
  have e1 : (recordRun tS (k + 1)).disk = some ((List.range' 1 k).map tS) := by
    rw [hd1, if_neg (by omega), hdiv]
  have e2 : (recordRun cS (k + 1)).disk = some ((List.range' 1 k).map cS) := by
    rw [hd2, if_neg (by omega), hdiv]
  refine ⟨by simp [diskLen, e1], by simp [diskLen, e2], ?_⟩
  intro d0 hd0'
  rcases Nat.lt_or_ge k (HISTORY_SIZE + 1) with hk1 | hk1
  · rw [hd0, if_pos hk1] at hd0'; exact absurd hd0' (by simp)
  · rw [hd0, if_neg (by omega)] at hd0'
    have hjk : HISTORY_SIZE * ((k - 1) / HISTORY_SIZE) = k - HISTORY_SIZE := by
      simp only [HISTORY_SIZE] at *; omega
    rw [hjk] at hd0'
    have hd0'' : d0 = (List.range' 1 (k - HISTORY_SIZE)).map tS := by
      exact (Option.some.injEq _ _).mp hd0'.symm
    subst hd0''
    constructor
    · simp
    · rw [e1, hb1]
      have h4 : min (k + 1) HISTORY_SIZE = HISTORY_SIZE := by omega
      rw [h4, show k + 1 - HISTORY_SIZE = k - HISTORY_SIZE + 1 from by omega]
      rw [← List.map_append]
      have hcat : List.range' 1 (k - HISTORY_SIZE) ++
          List.range' (k - HISTORY_SIZE + 1) HISTORY_SIZE = List.range' 1 k := by
        have h := List.range'_append 1 (k - HISTORY_SIZE) HISTORY_SIZE 1
        simp only [Nat.one_mul] at h
        rw [show 1 + (k - HISTORY_SIZE) = k - HISTORY_SIZE + 1 from by omega] at h
        rw [h]
        congr 1
        omega
      rw [hcat]

/-- Witness for C2 at the third flush of a session (`k = 300`),
with distinct time and capacitance streams. -/
theorem C2_flush_invariant_witness :
    0 < 300 ∧ 300 % HISTORY_SIZE = 0 ∧
    (diskLen (recordRun (fun i => (i : ℚ)) (300 + 1)) = 300 ∧
     diskLen (recordRun (fun i => (2 * i : ℚ)) (300 + 1)) = 300 ∧
     (∀ d0, (recordRun (fun i => (i : ℚ)) 300).disk = some d0 →
       d0.length = 300 - HISTORY_SIZE ∧
       (recordRun (fun i => (i : ℚ)) (300 + 1)).disk =
         some (d0 ++ (recordRun (fun i => (i : ℚ)) (300 + 1)).buf))) :=
  ⟨by decide, by decide,
    C2_flush_invariant (fun i => (i : ℚ)) (fun i => (2 * i : ℚ)) 300
      (by decide) (by decide)⟩

/-- Claim C1 (counterexample): after 101 completed scheduler iterations
the on-disk sample count is 100, not 101, and the sample captured in
iteration 0 (value `0` under the stream `i ↦ i`, which makes iteration
provenance visible) is absent from the dataset — it was evicted from the
`maxlen=100` deque before the first flush.  So the on-disk count does not
equal the number of completed iterations, and a sample is dropped. -/
theorem C1_counterexample :
    (recordRun (fun i => (i : ℚ)) 101).counter = 101 ∧
    diskLen (recordRun (fun i => (i : ℚ)) 101) = 100 ∧
    (∀ d, (recordRun (fun i => (i : ℚ)) 101).disk = some d → (0 : ℚ) ∉ d) ∧
    (100 : ℕ) ≠ 101 := by
  obtain ⟨hc, hb, hd⟩ := recordRun_spec (fun i => (i : ℚ)) 101
  have hcnt : HISTORY_SIZE * ((101 - 1) / HISTORY_SIZE) = 100 := by decide
  have e : (recordRun (fun i => (i : ℚ)) 101).disk =
      some ((List.range' 1 100).map (fun i : ℕ => (i : ℚ))) := by
    rw [hd, if_neg (by decide), hcnt]
  refine ⟨hc, by simp [diskLen, e], ?_, by decide⟩
  intro d hdd hmem
  rw [e] at hdd
  have hdeq : d = (List.range' 1 100).map (fun i : ℕ => (i : ℚ)) :=
    (Option.some.injEq _ _).mp hdd.symm
  subst hdeq
  simp only [List.mem_map, List.mem_range'] at hmem
  obtain ⟨a, ⟨i, hi, ha⟩, hval⟩ := hmem
  have : (0 : ℕ) = a := by exact_mod_cast hval.symm
  omega

/-- Claim C1 (amended): at every point of a session the on-disk sample
count for each sensor array equals
`HISTORY_SIZE * ((m - 1) / HISTORY_SIZE)` where `m` is the number of
completed scheduler iterations (no dataset at all until the flush inside
iteration `HISTORY_SIZE`); the stored samples are exactly those of
iterations `1 .. HISTORY_SIZE * ((m - 1) / HISTORY_SIZE)`, each exactly
once and in order.  The sample of iteration 0 and any samples after the
last flush are never stored. -/
theorem C1_amended (tS cS : ℕ → ℚ) (m : ℕ) :
    (recordRun tS m).counter = m ∧
    (recordRun tS m).disk =
      (if m < HISTORY_SIZE + 1 then none
       else some ((List.range' 1 (HISTORY_SIZE * ((m - 1) / HISTORY_SIZE))).map tS)) ∧
    (recordRun cS m).disk =
      (if m < HISTORY_SIZE + 1 then none
       else some ((List.range' 1 (HISTORY_SIZE * ((m - 1) / HISTORY_SIZE))).map cS)) :=
  ⟨(recordRun_spec tS m).1, (recordRun_spec tS m).2.2, (recordRun_spec cS m).2.2⟩

/-- Claim C10: `stop()` only clears the `recording` flag, so the loop
exits at the next iteration boundary and nothing after the loop writes to
disk.  For a session that ends after `m` completed iterations (with at
least one flush): the disk is exactly as the flush inside iteration
`HISTORY_SIZE * ((m-1)/HISTORY_SIZE)` left it (no final flush), its length
is that flush counter (strictly less than `m`), and the deque still holds
the last `HISTORY_SIZE` samples — so samples appended after the most
recent flush exist only in memory. -/
theorem C10_stop_no_final_flush (stream : ℕ → ℚ) (m : ℕ)
    (hm : HISTORY_SIZE + 1 ≤ m) :
    (recordRun stream m).counter = m ∧
    (recordRun stream m).disk =
      (recordRun stream (HISTORY_SIZE * ((m - 1) / HISTORY_SIZE) + 1)).disk ∧
    diskLen (recordRun stream m) = HISTORY_SIZE * ((m - 1) / HISTORY_SIZE) ∧
    HISTORY_SIZE * ((m - 1) / HISTORY_SIZE) < m ∧
    (recordRun stream m).buf =
      (List.range' (m - HISTORY_SIZE) HISTORY_SIZE).map stream := by
  obtain ⟨hc, hb, hd⟩ := recordRun_spec stream m
  obtain ⟨hcf, hbf, hdf⟩ :=
    recordRun_spec stream (HISTORY_SIZE * ((m - 1) / HISTORY_SIZE) + 1)
  have hfN : HISTORY_SIZE ≤ HISTORY_SIZE * ((m - 1) / HISTORY_SIZE) := by
    simp only [HISTORY_SIZE] at *; omega
  have hflt : HISTORY_SIZE * ((m - 1) / HISTORY_SIZE) < m := by
    simp only [HISTORY_SIZE] at *; omega
  have hsame : HISTORY_SIZE * ((HISTORY_SIZE * ((m - 1) / HISTORY_SIZE) + 1 - 1) /
      HISTORY_SIZE) = HISTORY_SIZE * ((m - 1) / HISTORY_SIZE) := by
    simp only [HISTORY_SIZE] at *; omega
  have e : (recordRun stream m).disk =
      some ((List.range' 1 (HISTORY_SIZE * ((m - 1) / HISTORY_SIZE))).map stream) := by
    rw [hd, if_neg (by omega)]
  refine ⟨hc, ?_, by simp [diskLen, e], hflt, ?_⟩
  · rw [e, hdf, if_neg (by omega), hsame]
  · rw [hb, show min m HISTORY_SIZE = HISTORY_SIZE from by omega]

/-- Witness for C10: a session stopped after 250 iterations. -/
theorem C10_stop_no_final_flush_witness :
    HISTORY_SIZE + 1 ≤ 250 ∧
    ((recordRun (fun i => (i : ℚ)) 250).counter = 250 ∧
     (recordRun (fun i => (i : ℚ)) 250).disk =
       (recordRun (fun i => (i : ℚ))
         (HISTORY_SIZE * ((250 - 1) / HISTORY_SIZE) + 1)).disk ∧
     diskLen (recordRun (fun i => (i : ℚ)) 250) =
       HISTORY_SIZE * ((250 - 1) / HISTORY_SIZE) ∧
     HISTORY_SIZE * ((250 - 1) / HISTORY_SIZE) < 250 ∧
     (recordRun (fun i => (i : ℚ)) 250).buf =
       (List.range' (250 - HISTORY_SIZE) HISTORY_SIZE).map (fun i : ℕ => (i : ℚ))) :=
  ⟨by decide, C10_stop_no_final_flush (fun i => (i : ℚ)) 250 (by decide)⟩

/-! ## Cycle metadata (`SensorRecorder.write_sensor_metadata`)

A sensor's HDF5 group of scalar metadata datasets is modelled as an
association list `List (String × ℚ)` in creation order; `name in group`
is `List.lookup`, `create_dataset` appends, `del group[name]` filters the
name out.  Dataset names carry the cycle suffix exactly as the code builds
them: the bare name for cycle 0, `f"{base}{cycle}"` otherwise. -/

/-- `"start_time" if cycle == 0 else f"start_time{cycle}"`, and likewise
for the other four metadata fields. -/
def cycleName (base : String) (cycle : ℕ) : String :=
  if cycle = 0 then base else base ++ toString cycle

/-- The idempotent timestamp write: create the dataset only when the value
is provided and the name is not already in the group. -/
def writeTimestampField (g : List (String × ℚ)) (name : String) (v : Option ℚ) :
    List (String × ℚ) :=
  match v with
  | none => g
  | some t => if (g.lookup name).isSome then g else g ++ [(name, t)]

/-- The overwrite-on-write volume/weight write: when the value is provided
and strictly positive, delete any existing dataset of that name and
recreate it. -/
def writePositiveField (g : List (String × ℚ)) (name : String) (v : Option ℚ) :
    List (String × ℚ) :=
  match v with
  | none => g
  | some x => if 0 < x then (g.filter (fun p => p.1 != name)) ++ [(name, x)] else g

/-- `write_sensor_metadata`, restricted to one sensor's group: the five
field writes in source order (start/stop timestamps idempotently,
volumes/weight overwrite-on-positive). -/
def writeSensorMetadata (g : List (String × ℚ))
    (startTime stopTime startVol stopVol weight : Option ℚ) (cycle : ℕ) :
    List (String × ℚ) :=
  let g1 := writeTimestampField g (cycleName "start_time" cycle) startTime
  let g2 := writeTimestampField g1 (cycleName "stop_time" cycle) stopTime
  let g3 := writePositiveField g2 (cycleName "start_vol" cycle) startVol
  let g4 := writePositiveField g3 (cycleName "stop_vol" cycle) stopVol
  writePositiveField g4 (cycleName "weight" cycle) weight

lemma cycleName_eq_append (base : String) (c : ℕ) :
    cycleName base c = base ++ (if c = 0 then "" else toString c) := by
  unfold cycleName
  by_cases h : c = 0 <;> simp [h]

/-- Two string concatenations differ when their prefixes differ at a
common position. -/
lemma strConcat_ne (p q x y : String) (i : ℕ) (hip : i < p.data.length)
    (hiq : i < q.data.length) (hne : p.data.getD i ' ' ≠ q.data.getD i ' ') :
    p ++ x ≠ q ++ y := by
  intro h
  have hd := congrArg String.data h
  rw [String.data_append, String.data_append] at hd
  apply hne
  calc p.data.getD i ' ' = (p.data ++ x.data).getD i ' ' :=
        (List.getD_append _ _ _ _ hip).symm
    _ = (q.data ++ y.data).getD i ' ' := by rw [hd]
    _ = q.data.getD i ' ' := List.getD_append _ _ _ _ hiq

lemma startTime_ne_startVol (c c' : ℕ) :
    cycleName "start_time" c ≠ cycleName "start_vol" c' := by
  rw [cycleName_eq_append, cycleName_eq_append]
  exact strConcat_ne _ _ _ _ 6 (by decide) (by decide) (by decide)

lemma startTime_ne_stopVol (c c' : ℕ) :
    cycleName "start_time" c ≠ cycleName "stop_vol" c' := by
  rw [cycleName_eq_append, cycleName_eq_append]
  exact strConcat_ne _ _ _ _ 2 (by decide) (by decide) (by decide)

lemma startTime_ne_weight (c c' : ℕ) :
    cycleName "start_time" c ≠ cycleName "weight" c' := by
  rw [cycleName_eq_append, cycleName_eq_append]
  exact strConcat_ne _ _ _ _ 0 (by decide) (by decide) (by decide)

lemma stopTime_ne_startVol (c c' : ℕ) :
    cycleName "stop_time" c ≠ cycleName "start_vol" c' := by
  rw [cycleName_eq_append, cycleName_eq_append]
  exact strConcat_ne _ _ _ _ 2 (by decide) (by decide) (by decide)

lemma stopTime_ne_stopVol (c c' : ℕ) :
    cycleName "stop_time" c ≠ cycleName "stop_vol" c' := by
  rw [cycleName_eq_append, cycleName_eq_append]
  exact strConcat_ne _ _ _ _ 5 (by decide) (by decide) (by decide)

lemma stopTime_ne_weight (c c' : ℕ) :
    cycleName "stop_time" c ≠ cycleName "weight" c' := by
  rw [cycleName_eq_append, cycleName_eq_append]
  exact strConcat_ne _ _ _ _ 0 (by decide) (by decide) (by decide)

/-- Deleting one name does not change lookups of other names. -/
lemma lookup_filter_ne (g : List (String × ℚ)) (k n : String) (h : k ≠ n) :
    (g.filter (fun p => p.1 != n)).lookup k = g.lookup k := by
  induction g with
  | nil => rfl
  | cons p g ih =>
    obtain ⟨a, b⟩ := p
    by_cases ha : a = n
    · -- this entry is deleted, but it cannot be the looked-up key
      have h1 : ((a, b).1 != n) = false := by simp [ha]
      have h2 : (k == a) = false := by rw [ha]; simp [h]
      simp only [List.filter_cons, h1, Bool.false_eq_true, if_false,
        List.lookup_cons, h2, ih]
    · have h1 : ((a, b).1 != n) = true := by simp [ha]
      by_cases hk : k = a
      · subst hk
        simp only [List.filter_cons, h1, if_true, List.lookup_cons, beq_self_eq_true]
      · have h2 : (k == a) = false := by simp [hk]
        simp only [List.filter_cons, h1, if_true, List.lookup_cons, h2, ih]

/-- `writePositiveField` only touches its own name. -/
lemma writePositiveField_lookup_ne (g : List (String × ℚ)) (n : String)
    (v : Option ℚ) (k : String) (h : k ≠ n) :
    (writePositiveField g n v).lookup k = g.lookup k := by
  cases v with
  | none => rfl
  | some x =>
    simp only [writePositiveField]
    by_cases hx : 0 < x
    · simp only [if_pos hx, List.lookup_append, lookup_filter_ne g k n h]
      have hkn : (k == n) = false := by simp [h]
      have hnone : List.lookup k [(n, x)] = none := by
        simp only [List.lookup_cons, hkn, List.lookup_nil]
      rw [hnone]
      cases g.lookup k <;> rfl
    · rw [if_neg hx]

/-- A present timestamp stays present through a `writeTimestampField` to
any name. -/
lemma writeTimestampField_lookup_mono (g : List (String × ℚ)) (n : String)
    (v : Option ℚ) (k : String) (w : ℚ) (h : g.lookup k = some w) :
    (writeTimestampField g n v).lookup k = some w := by
  cases v with
  | none => exact h
  | some t =>
    simp only [writeTimestampField]
    by_cases hs : (g.lookup n).isSome
    · rw [if_pos hs]; exact h
    · rw [if_neg hs, List.lookup_append, h]; rfl

/-- After a provided timestamp write, the name is present. -/
lemma writeTimestampField_isSome (g : List (String × ℚ)) (n : String) (t : ℚ) :
    ((writeTimestampField g n (some t)).lookup n).isSome := by
  simp only [writeTimestampField]
  by_cases hs : (g.lookup n).isSome
  · rw [if_pos hs]; exact hs
  · rw [if_neg hs, List.lookup_append]
    have : g.lookup n = none := by
      cases hg : g.lookup n
      · rfl
      · rw [hg] at hs; simp at hs
    rw [this]
    simp [List.lookup]

/-- A timestamp write to a name that is already present is the identity. -/
lemma writeTimestampField_of_isSome (g : List (String × ℚ)) (n : String)
    (v : Option ℚ) (h : v.isSome → (g.lookup n).isSome) :
    writeTimestampField g n v = g := by
  cases v with
  | none => rfl
  | some t =>
    simp only [writeTimestampField]
    rw [if_pos (h (by simp))]

/-- Claim C8: calling `write_sensor_metadata` a second time with the same
arguments leaves every stored `start_time*` and `stop_time*` dataset (for
every cycle `c`) exactly as the first call left it: timestamp fields are
created only when not already present, and the volume/weight rewrites of
the second call touch only volume/weight names. -/
theorem C8_writeCycleMetadata_idempotent
    (g : List (String × ℚ)) (st sp sv ev w : Option ℚ) (cycle : ℕ) (c : ℕ) :
    (writeSensorMetadata (writeSensorMetadata g st sp sv ev w cycle)
        st sp sv ev w cycle).lookup (cycleName "start_time" c) =
      (writeSensorMetadata g st sp sv ev w cycle).lookup (cycleName "start_time" c) ∧
    (writeSensorMetadata (writeSensorMetadata g st sp sv ev w cycle)
        st sp sv ev w cycle).lookup (cycleName "stop_time" c) =
      (writeSensorMetadata g st sp sv ev w cycle).lookup (cycleName "stop_time" c) := by
  have hg1s : st.isSome →
      ((writeSensorMetadata g st sp sv ev w cycle).lookup
        (cycleName "start_time" cycle)).isSome := by
    intro hst
    obtain ⟨t, rfl⟩ := Option.isSome_iff_exists.mp hst
    simp only [writeSensorMetadata]
    rw [writePositiveField_lookup_ne _ _ _ _ (startTime_ne_weight cycle cycle),
      writePositiveField_lookup_ne _ _ _ _ (startTime_ne_stopVol cycle cycle),
      writePositiveField_lookup_ne _ _ _ _ (startTime_ne_startVol cycle cycle)]
    have h1 := writeTimestampField_isSome g (cycleName "start_time" cycle) t
    obtain ⟨u, hu⟩ := Option.isSome_iff_exists.mp h1
    rw [writeTimestampField_lookup_mono _ _ _ _ u hu]
    rfl
  have hg1p : sp.isSome →
      ((writeSensorMetadata g st sp sv ev w cycle).lookup
        (cycleName "stop_time" cycle)).isSome := by
    intro hsp
    obtain ⟨t, rfl⟩ := Option.isSome_iff_exists.mp hsp
    simp only [writeSensorMetadata]
    rw [writePositiveField_lookup_ne _ _ _ _ (stopTime_ne_weight cycle cycle),
      writePositiveField_lookup_ne _ _ _ _ (stopTime_ne_stopVol cycle cycle),
      writePositiveField_lookup_ne _ _ _ _ (stopTime_ne_startVol cycle cycle)]
    exact writeTimestampField_isSome _ _ t
  have hcollapse : writeSensorMetadata (writeSensorMetadata g st sp sv ev w cycle)
      st sp sv ev w cycle =
      writePositiveField (writePositiveField (writePositiveField
        (writeSensorMetadata g st sp sv ev w cycle)
        (cycleName "start_vol" cycle) sv) (cycleName "stop_vol" cycle) ev)
        (cycleName "weight" cycle) w := by
    conv_lhs => rw [writeSensorMetadata]
    rw [writeTimestampField_of_isSome _ _ st hg1s,
      writeTimestampField_of_isSome _ _ sp hg1p]
  rw [hcollapse]
  constructor
  · rw [writePositiveField_lookup_ne _ _ _ _ (startTime_ne_weight c cycle),
      writePositiveField_lookup_ne _ _ _ _ (startTime_ne_stopVol c cycle),
      writePositiveField_lookup_ne _ _ _ _ (startTime_ne_startVol c cycle)]
  · rw [writePositiveField_lookup_ne _ _ _ _ (stopTime_ne_weight c cycle),
      writePositiveField_lookup_ne _ _ _ _ (stopTime_ne_stopVol c cycle),
      writePositiveField_lookup_ne _ _ _ _ (stopTime_ne_startVol c cycle)]

/-! ## Consumed volume (`filter_data`, lines 85-88)

After truncation, `filter_data` runs

  if 'stop_vol' in sensor_data.keys():
      sensor_data['consumed_vol'] = sensor_data['start_vol'] - sensor_data['stop_vol']

with no surrounding try/except: the guard tests only `stop_vol`, and the
subsequent `sensor_data['start_vol']` dict access raises an uncaught
`KeyError` when `start_vol` is absent.  `Except.error k` models an
uncaught `KeyError(k)` escaping `filter_data`; `Except.ok none` models the
field being left unset (later logged by `save_filtered_data` and skipped). -/

/-- The consumed-volume step of `filter_data` for one sensor's metadata. -/
def consumedVolStep (sensorData : List (String × ℚ)) : Except String (Option ℚ) :=
  if (sensorData.lookup "stop_vol").isSome then
    match sensorData.lookup "start_vol", sensorData.lookup "stop_vol" with
    | some sv, some ev => Except.ok (some (sv - ev))
    | none, _ => Except.error "start_vol"
    | _, none => Except.error "stop_vol"
  else Except.ok none

/-- Claim C4: the code computes `start_vol - stop_vol` when both volumes
are present, and leaves the field unset when `stop_vol` is missing — but
when `stop_vol` is present and `start_vol` is missing it raises an
uncaught `KeyError('start_vol')` that aborts the whole analysis batch,
instead of omitting the field and continuing. -/
theorem C4_missing_start_vol_uncaught :
    consumedVolStep [("stop_vol", 2)] = Except.error "start_vol" ∧
    consumedVolStep [("start_vol", 10), ("stop_vol", 2)] = Except.ok (some 8) ∧
    consumedVolStep [("start_vol", 10)] = Except.ok none := by
  refine ⟨rfl, ?_, rfl⟩
  show Except.ok (some ((10 : ℚ) - 2)) = Except.ok (some 8)
  norm_num

/-! ## The envelope algorithm's band-pass stage (`hilbert_algorithm`)

The code builds the gating signal with

  filtered_data = scs.filtfilt(bh, ah, trace)
  filtered_data = scs.filtfilt(bl, al, filtered_data)
  filtered_data = [scs.filtfilt(bh, ah, filtered_data) for _ in range(6)][-1]
  filtered_data = [scs.filtfilt(bl, al, filtered_data) for _ in range(6)][-1]

The zero-phase filters `filtfilt(bh, ah, ·)` (4th-order 8 Hz high-pass)
and `filtfilt(bl, al, ·)` (8th-order 12 Hz low-pass) are numerical
float-array transforms; they are abstracted as parameters `hp lp`.  The
list comprehension evaluates `filtfilt` on the *same* (un-rebound)
`filtered_data` six times and `[-1]` keeps one of the six identical
results. -/

/-- `[f(x) for _ in range(6)][-1]`. -/
def pyRepeatLast (f : List ℚ → List ℚ) (x : List ℚ) : List ℚ :=
  (((List.range 6).map (fun _ => f x)).getLast?).getD x

/-- The filtered signal whose Hilbert envelope gates the candidates, as
the code computes it. -/
def hilbertFilteredSignal (hp lp : List ℚ → List ℚ) (trace : List ℚ) : List ℚ :=
  let fd := hp trace
  let fd := lp fd
  let fd := pyRepeatLast hp fd
  let fd := pyRepeatLast lp fd
  fd

/-- The filtered signal as the spec describes it: the high-pass and the
low-pass each applied six times in sequence.  (Second definition for the
refinement comparison, following the spec's words.) -/
def specSixfoldFilteredSignal (hp lp : List ℚ → List ℚ) (trace : List ℚ) : List ℚ :=
  lp^[6] (hp^[6] trace)

/-- Claim C5: the comprehension collapses — the code's gating signal is
high-pass, low-pass, high-pass, low-pass applied once each (two
applications of each filter, interleaved), not six applications of each;
on the concrete abstract-filter instance `hp = pointwise +1`, `lp = id`,
`trace = [0]` the code yields `[2]` while the spec's six-fold pipeline
yields `[6]`. -/
theorem C5_filter_comprehension_collapses :
    (∀ (hp lp : List ℚ → List ℚ) (trace : List ℚ),
      hilbertFilteredSignal hp lp trace = lp (hp (lp (hp trace)))) ∧
    hilbertFilteredSignal (fun l => l.map (· + 1)) id [0] = [2] ∧
    specSixfoldFilteredSignal (fun l => l.map (· + 1)) id [0] = [6] ∧
    hilbertFilteredSignal (fun l => l.map (· + 1)) id [0] ≠
      specSixfoldFilteredSignal (fun l => l.map (· + 1)) id [0] := by
  have hcollapse : ∀ (hp lp : List ℚ → List ℚ) (trace : List ℚ),
      hilbertFilteredSignal hp lp trace = lp (hp (lp (hp trace))) := by
    intro hp lp trace
    rfl
  refine ⟨hcollapse, ?_, ?_, ?_⟩
  · rw [hcollapse]
    show (([(0 : ℚ)].map (· + 1)).map (· + 1) : List ℚ) = [2]
    norm_num
  · show ((fun l : List ℚ => l.map (· + 1))^[6] [0] : List ℚ) = [6]
    simp only [Function.iterate_succ, Function.iterate_zero, Function.comp_apply, id_eq]
    norm_num
  · rw [hcollapse]
    intro h
    have h2 : (([(0 : ℚ)].map (· + 1)).map (· + 1) : List ℚ) =
        (fun l : List ℚ => l.map (· + 1))^[6] [0] := h
    simp only [Function.iterate_succ, Function.iterate_zero, Function.comp_apply,
      id_eq, List.map_cons, List.map_nil, List.cons.injEq] at h2
    norm_num at h2

/-! ## Candidate deduplication (`hilbert_algorithm`, lines 267-272)

  min_dist = int(0.08 * fs)
  lick_idxs = []
  for idx in candidates:
      if not lick_idxs or (idx - lick_idxs[-1]) > min_dist:
          lick_idxs.append(idx)

Sample indices are Python/numpy integers, modelled as `ℤ`. -/

/-- Python `int(x)`: truncation toward zero. -/
def pyInt (q : ℚ) : ℤ := Int.tdiv q.num q.den

/-- `min_dist = int(0.08 * fs)`. -/
def minLickDist (fs : ℚ) : ℤ := pyInt ((2 / 25) * fs)

/-- The dedup loop once the first candidate has been kept: `last` is
`lick_idxs[-1]`. -/
def dedupLicksAux (minDist last : ℤ) : List ℤ → List ℤ
  | [] => []
  | x :: rest =>
    if minDist < x - last then x :: dedupLicksAux minDist x rest
    else dedupLicksAux minDist last rest

/-- The dedup loop: the first candidate is always kept (`not lick_idxs`),
each later one only when more than `minDist` past the last kept one. -/
def dedupLicks (minDist : ℤ) : List ℤ → List ℤ
  | [] => []
  | x :: rest => x :: dedupLicksAux minDist x rest

lemma dedupLicksAux_sublist (minDist last : ℤ) (l : List ℤ) :
    (dedupLicksAux minDist last l).Sublist l := by
  induction l generalizing last with
  | nil => exact List.Sublist.refl _
  | cons x rest ih =>
    simp only [dedupLicksAux]
    by_cases h : minDist < x - last
    · rw [if_pos h]; exact (ih x).cons₂ x
    · rw [if_neg h]; exact (ih last).cons x

lemma dedupLicks_sublist (minDist : ℤ) (l : List ℤ) :
    (dedupLicks minDist l).Sublist l := by
  cases l with
  | nil => exact List.Sublist.refl _
  | cons x rest => exact (dedupLicksAux_sublist minDist x rest).cons₂ x

/-- The first kept element lies more than `minDist` past `last`, and
consecutive kept elements are more than `minDist` apart. -/
lemma dedupLicksAux_spec (minDist : ℤ) (l : List ℤ) : ∀ last : ℤ,
    (∀ y, (dedupLicksAux minDist last l).head? = some y → minDist < y - last) ∧
    (dedupLicksAux minDist last l).Chain' (fun a b => minDist < b - a) := by
  induction l with
  | nil => exact fun last => ⟨by simp [dedupLicksAux], by simp [dedupLicksAux]⟩
  | cons x rest ih =>
    intro last
    simp only [dedupLicksAux]
    by_cases h : minDist < x - last
    · rw [if_pos h]
      obtain ⟨hhead, hchain⟩ := ih x
      constructor
      · intro y hy
        rw [List.head?_cons, Option.some.injEq] at hy
        omega
      · exact List.chain'_cons'.mpr ⟨fun y hy => hhead y hy, hchain⟩
    · rw [if_neg h]
      exact ih last

lemma dedupLicks_chain (minDist : ℤ) (l : List ℤ) :
    (dedupLicks minDist l).Chain' (fun a b => minDist < b - a) := by
  cases l with
  | nil => simp [dedupLicks]
  | cons x rest =>
    obtain ⟨hhead, hchain⟩ := dedupLicksAux_spec minDist rest x
    exact List.chain'_cons'.mpr ⟨fun y hy => hhead y hy, hchain⟩

/-- A chain of gaps greater than a nonnegative `d` gives all pairwise gaps
greater than `d`. -/
lemma chain_gaps_pairwise (d : ℤ) (hd : 0 ≤ d) (l : List ℤ)
    (h : l.Chain' (fun a b => d < b - a)) : l.Pairwise (fun a b => d < b - a) := by
  induction l with
  | nil => exact List.Pairwise.nil
  | cons x l ih =>
    have htail : l.Chain' (fun a b => d < b - a) := h.tail
    have hpair := ih htail
    refine List.pairwise_cons.mpr ⟨?_, hpair⟩
    intro y hy
    induction l generalizing y with
    | nil => cases hy
    | cons z l2 _ =>
      have hxz : d < z - x := List.chain'_cons.mp h |>.1
      rcases List.mem_cons.mp hy with rfl | hy2
      · exact hxz
      · have hzy : d < y - z := (List.pairwise_cons.mp hpair).1 y hy2
        omega

/-- Members of a pairwise-related list are related one way or the other. -/
lemma pairwise_rel_of_mem {R : ℤ → ℤ → Prop} {l : List ℤ} (h : l.Pairwise R)
    {a b : ℤ} (ha : a ∈ l) (hb : b ∈ l) : a = b ∨ R a b ∨ R b a := by
  induction l with
  | nil => cases ha
  | cons x l ih =>
    obtain ⟨hx, hl⟩ := List.pairwise_cons.mp h
    rcases List.mem_cons.mp ha with rfl | ha' <;> rcases List.mem_cons.mp hb with rfl | hb'
    · exact Or.inl rfl
    · exact Or.inr (Or.inl (hx b hb'))
    · exact Or.inr (Or.inr (hx a ha'))
    · exact ih hl ha' hb'

lemma pyInt_eq_floor (q : ℚ) (hq : 0 ≤ q) : pyInt q = ⌊q⌋ := by
  unfold pyInt
  rw [Int.tdiv_eq_ediv (by exact_mod_cast Rat.num_nonneg.mpr hq)
    (Int.ofNat_nonneg q.den), Rat.floor_def]

lemma minLickDist_nonneg (fs : ℚ) (hfs : 0 < fs) : 0 ≤ minLickDist fs := by
  unfold minLickDist
  rw [pyInt_eq_floor _ (by positivity)]
  exact Int.floor_nonneg.mpr (by positivity)

/-- Claim C7 (amended): in the dedup pass the first candidate is always
kept and each later candidate only when more than `int(0.08*fs)` samples
past the last kept one; consequently two candidates closer than 0.08 s
apart are never *both* kept — but the kept one need not be the earlier of
the pair (see the counterexample). -/
theorem C7_amended_dedup (fs : ℚ) (cands : List ℤ) (hfs : 0 < fs)
    (hsorted : cands.Pairwise (fun a b : ℤ => a < b)) :
    (dedupLicks (minLickDist fs) cands).head? = cands.head? ∧
    (dedupLicks (minLickDist fs) cands).Chain' (fun a b => minLickDist fs < b - a) ∧
    (∀ i j : ℤ, i ∈ cands → j ∈ cands → i < j →
      ((j : ℚ) - (i : ℚ)) / fs < 2 / 25 →
      ¬(i ∈ dedupLicks (minLickDist fs) cands ∧ j ∈ dedupLicks (minLickDist fs) cands)) := by
  have hd0 : 0 ≤ minLickDist fs := minLickDist_nonneg fs hfs
  refine ⟨?_, dedupLicks_chain _ _, ?_⟩
  · cases cands <;> rfl
  · rintro i j hi hj hij hclose ⟨hid, hjd⟩
    have h1 : ((j : ℚ) - i) < (2 / 25) * fs := by
      rw [div_lt_iff₀ hfs] at hclose
      linarith
    have h2 : (j - i : ℤ) ≤ minLickDist fs := by
      rw [minLickDist, pyInt_eq_floor _ (by positivity)]
      apply Int.le_floor.mpr
      push_cast
      linarith
    have hpw := chain_gaps_pairwise _ hd0 _ (dedupLicks_chain (minLickDist fs) cands)
    rcases pairwise_rel_of_mem hpw hid hjd with heq | hR | hR <;> omega

lemma minLickDist_at_125_2 : minLickDist (125 / 2) = 5 := by
  have h : (2 / 25 : ℚ) * (125 / 2) = 5 := by norm_num
  rw [minLickDist, h]
  show Int.tdiv (5 : ℚ).num (5 : ℚ).den = 5
  rw [Rat.num_ofNat, Rat.den_ofNat]
  decide

/-- Witness for the amended C7 at `fs = 62.5` (so `min_dist = 5`) and
candidates `[10, 14, 16]`: the dedup keeps `[10, 16]`, consecutive kept
events are more than 5 samples apart, and the pair `(14, 16)` (0.032 s
apart) is not kept in full. -/
theorem C7_amended_dedup_witness :
    (0 : ℚ) < 125 / 2 ∧
    ([10, 14, 16] : List ℤ).Pairwise (fun a b : ℤ => a < b) ∧
    (dedupLicks (minLickDist (125 / 2)) [10, 14, 16]).head? = some 10 ∧
    (dedupLicks (minLickDist (125 / 2)) [10, 14, 16]).Chain'
      (fun a b => minLickDist (125 / 2) < b - a) ∧
    ¬((14 : ℤ) ∈ dedupLicks (minLickDist (125 / 2)) [10, 14, 16] ∧
      (16 : ℤ) ∈ dedupLicks (minLickDist (125 / 2)) [10, 14, 16]) := by
  have h := C7_amended_dedup (125 / 2) [10, 14, 16] (by norm_num) (by decide)
  refine ⟨by norm_num, by decide, ?_, h.2.1, ?_⟩
  · rw [h.1]
    rfl
  · exact h.2.2 14 16 (by decide) (by decide) (by decide) (by norm_num)

/-- Claim C7 (counterexample): with `fs = 62.5` (`min_dist = 5`) and
candidates `[10, 14, 16]`, the pair `(14, 16)` is closer than 0.08 s
(0.032 s apart), yet the dedup keeps `[10, 16]`: the *later* candidate of
the close pair is kept and the earlier one is dropped, refuting "only the
earlier one is kept". -/
theorem C7_counterexample :
    ((16 : ℚ) - 14) / (125 / 2) < 2 / 25 ∧
    (14 : ℤ) ∈ ([10, 14, 16] : List ℤ) ∧
    (16 : ℤ) ∈ ([10, 14, 16] : List ℤ) ∧
    dedupLicks (minLickDist (125 / 2)) [10, 14, 16] = [10, 16] ∧
    (14 : ℤ) ∉ dedupLicks (minLickDist (125 / 2)) [10, 14, 16] ∧
    (16 : ℤ) ∈ dedupLicks (minLickDist (125 / 2)) [10, 14, 16] := by
  rw [minLickDist_at_125_2]
  refine ⟨by norm_num, by decide, by decide, by decide, by decide, by decide⟩

/-! ## The envelope algorithm's candidate pipeline (`hilbert_algorithm`)

  downs = np.where((trace[:-1] > trace[1:] + 15))[0] + 1
  candidates = [i for i in downs if env_mask[i]]

where `env_mask = env > 0.261 * np.max(env)` and `env` is the Hilbert
envelope of the filtered signal (kept abstract, a `List ℚ` parameter).
After deduplication (`dedupLicks`) and the `len < 3` early exit, the
continuity filter keeps an index when its neighbors among the kept
candidates are close enough (`max_dist = int(0.5 * fs)`). -/

/-- `np.where(trace[:-1] > trace[1:] + 15)[0] + 1`: a scan over adjacent
pairs, emitting the index of the right element of each dropping pair. -/
def downsAux : List ℚ → ℤ → List ℤ
  | x0 :: x1 :: rest, i =>
    (if x1 + 15 < x0 then [i + 1] else []) ++ downsAux (x1 :: rest) (i + 1)
  | _, _ => []

def downs (trace : List ℚ) : List ℤ := downsAux trace 0

/-- `np.max` (0 for an empty array, where numpy would raise). -/
def listMax : List ℚ → ℚ
  | [] => 0
  | x :: rest => rest.foldl max x

/-- `env_thr = 0.261 * np.max(env)`. -/
def envThreshold (env : List ℚ) : ℚ := (261 / 1000) * listMax env

/-- `candidates = [i for i in downs if env_mask[i]]`. -/
def hilbertCandidates (trace env : List ℚ) : List ℤ :=
  (downs trace).filter (fun i => decide (envThreshold env < env.getD i.toNat 0))

/-- `max_dist = int(0.5 * fs)`. -/
def maxLickSep (fs : ℚ) : ℤ := pyInt ((1 / 2) * fs)

/-- One pass of the continuity loop for position `i` of the kept list `l`:
the boundary positions use the one-sided rule, interior positions the
two-sided rule with the one-sided fallbacks, exactly as the chain of
`if`/`elif` branches in the source. -/
def contKeep (maxDist : ℤ) (l : List ℤ) (i : ℕ) : Bool :=
  let idx := l.getD i 0
  if i = 0 then
    decide (|idx - l.getD 1 0| < maxDist ∧ |idx - l.getD 2 0| < 2 * maxDist)
  else if i = l.length - 1 then
    decide (|idx - l.getD (i - 1) 0| < maxDist ∧ |idx - l.getD (i - 2) 0| < 2 * maxDist)
  else
    let il := l.getD (i - 1) 0
    let ir := l.getD (i + 1) 0
    if |idx - il| < maxDist ∧ |idx - ir| < maxDist then true
    else if |idx - il| < maxDist then
      if i = 1 then false
      else decide (|idx - l.getD (i - 2) 0| < 2 * maxDist)
    else if |idx - ir| < maxDist then
      if l.length - 2 ≤ i then false
      else decide (|idx - l.getD (i + 2) 0| < 2 * maxDist)
    else false

/-- The continuity loop: scan positions in order, appending the kept
indices. -/
def continuityFilter (maxDist : ℤ) (l : List ℤ) : List ℤ :=
  (List.range l.length).filterMap
    (fun i => if contKeep maxDist l i then some (l.getD i 0) else none)

/-- `hilbert_algorithm`'s per-animal event indices: `none` models the
`continue` that skips `save_filtered_data` when fewer than 3 deduplicated
candidates exist. -/
def hilbertLickIndices (trace env : List ℚ) (fs : ℚ) : Option (List ℤ) :=
  let cands := hilbertCandidates trace env
  let licks := dedupLicks (minLickDist fs) cands
  if licks.length < 3 then none
  else some (continuityFilter (maxLickSep fs) licks)

lemma downsAux_sorted (l : List ℚ) : ∀ i : ℤ,
    (∀ y ∈ downsAux l i, i < y) ∧ (downsAux l i).Pairwise (fun a b : ℤ => a < b) := by
  induction l with
  | nil => exact fun i => ⟨by simp [downsAux], by simp [downsAux]⟩
  | cons x0 rest ih =>
    intro i
    cases rest with
    | nil => exact ⟨by simp [downsAux], by simp [downsAux]⟩
    | cons x1 rest2 =>
      obtain ⟨hmem, hpw⟩ := ih (i + 1)
      constructor
      · intro y hy
        simp only [downsAux, List.mem_append] at hy
        rcases hy with hy | hy
        · rcases (by split at hy <;> simp_all : y = i + 1) with rfl
          omega
        · have := hmem y hy
          omega
      · show (downsAux (x0 :: x1 :: rest2) i).Pairwise _
        simp only [downsAux]
        by_cases h : x1 + 15 < x0
        · rw [if_pos h]
          simp only [List.singleton_append]
          exact List.pairwise_cons.mpr ⟨fun y hy => hmem y hy, hpw⟩
        · rw [if_neg h]
          simpa using hpw

lemma hilbertCandidates_sorted (trace env : List ℚ) :
    (hilbertCandidates trace env).Pairwise (fun a b : ℤ => a < b) :=
  ((downsAux_sorted trace 0).2).filter _

/-- The continuity filter of a sorted list is sorted: it picks positions
in increasing order. -/
lemma continuityFilter_sorted (maxDist : ℤ) (l : List ℤ)
    (hl : l.Pairwise (fun a b : ℤ => a < b)) :
    (continuityFilter maxDist l).Pairwise (fun a b : ℤ => a < b) := by
  unfold continuityFilter
  rw [List.pairwise_filterMap]
  have hr := List.pairwise_lt_range l.length
  refine hr.imp_of_mem ?_
  intro i j hi hj hij
  intro b hb b' hb'
  have hbi : b = l.getD i 0 := by
    by_cases hc : contKeep maxDist l i
    · rw [if_pos hc] at hb
      exact ((Option.some.injEq _ _).mp (Option.mem_def.mp hb)).symm
    · rw [if_neg hc] at hb
      exact absurd (Option.mem_def.mp hb) (by simp)
  have hbj : b' = l.getD j 0 := by
    by_cases hc : contKeep maxDist l j
    · rw [if_pos hc] at hb'
      exact ((Option.some.injEq _ _).mp (Option.mem_def.mp hb')).symm
    · rw [if_neg hc] at hb'
      exact absurd (Option.mem_def.mp hb') (by simp)
  subst hbi hbj
  have hiL : i < l.length := List.mem_range.mp hi
  have hjL : j < l.length := List.mem_range.mp hj
  rw [List.getD_eq_getElem l 0 hiL, List.getD_eq_getElem l 0 hjL]
  exact List.pairwise_iff_getElem.mp hl i j hiL hjL hij

/-- The envelope algorithm's output is strictly increasing whenever it
produces one. -/
lemma hilbertLickIndices_sorted (trace env : List ℚ) (fs : ℚ) (l : List ℤ)
    (h : hilbertLickIndices trace env fs = some l) :
    l.Pairwise (fun a b : ℤ => a < b) := by
  unfold hilbertLickIndices at h
  by_cases hlen : (dedupLicks (minLickDist fs) (hilbertCandidates trace env)).length < 3
  · rw [if_pos hlen] at h; cases h
  · rw [if_neg hlen] at h
    obtain rfl := (Option.some.injEq _ _).mp h.symm
    apply continuityFilter_sorted
    exact List.Pairwise.sublist (dedupLicks_sublist _ _) (hilbertCandidates_sorted trace env)

/-! ## The threshold-scan algorithm (`basic_algorithm`)

Per animal: `np.unique` of the trace (sorted distinct values, at least 4
required), candidate thresholds at midpoints of consecutive distinct
values, and for each threshold index `i ≥ 2`:

* `peak_trans = np.diff((trace < thr).astype(int8))`,
  `peak_starts = np.where(peak_trans == 1)[0] + 1`,
  `peak_ends = np.where(peak_trans == -1)[0]`, with the first/last sample
  handled as implicit run boundaries (`np.r_` prepend/append) — modelled
  as scans over adjacent pairs of the below-threshold mask;
* runs are trimmed to matching start/end counts (`zip` truncates like the
  `[:m]` alignment), filtered by duration (`< 1/6` s) and by depth
  (some sample below `thresholds[i-2]`);
* each surviving run contributes the index of its first minimum
  (`np.argmin`; the `-1` sentinel of `temp_peak_bins` survives only for an
  empty slice, which cannot happen);
* the threshold with the most surviving runs wins (`np.nanmax` over a row
  initialized to NaN below index 2, first index achieving the maximum).

`none` models a `continue` that writes nothing for the animal. -/

/-- Insertion into a sorted list (ties keep the incoming element first;
irrelevant after `dedup`). -/
def insertSorted (x : ℚ) : List ℚ → List ℚ
  | [] => [x]
  | y :: ys => if x ≤ y then x :: y :: ys else y :: insertSorted x ys

/-- Sort ascending, as `np.unique` does before removing duplicates. -/
def sortQ (l : List ℚ) : List ℚ := l.foldr insertSorted []

/-- `np.unique(trace)`: the sorted distinct capacitance values. -/
def uniqueVals (trace : List ℚ) : List ℚ := (sortQ trace).dedup

/-- `(unique_vals[:-1] + unique_vals[1:]) / 2`. -/
def thresholds (u : List ℚ) : List ℚ :=
  (u.zip u.tail).map (fun p => (p.1 + p.2) / 2)

/-- `trace < thr` as an int8/bool mask. -/
def belowMask (trace : List ℚ) (thr : ℚ) : List Bool :=
  trace.map (fun x => decide (x < thr))

/-- `np.where(np.diff(mask) == 1)[0] + 1`: indices (offset by the running
counter `j`) whose predecessor is out of the run and which are in it. -/
def transStartsAux : List Bool → ℕ → List ℕ
  | b0 :: b1 :: rest, j =>
    (if b1 = true ∧ b0 = false then [j + 1] else []) ++ transStartsAux (b1 :: rest) (j + 1)
  | _, _ => []

/-- `np.where(np.diff(mask) == -1)[0]`: indices in the run whose successor
is out of it. -/
def transEndsAux : List Bool → ℕ → List ℕ
  | b0 :: b1 :: rest, j =>
    (if b0 = true ∧ b1 = false then [j] else []) ++ transEndsAux (b1 :: rest) (j + 1)
  | _, _ => []

/-- Run starts with the `np.r_[0, peak_starts]` fixup when the trace
begins below threshold. -/
def peakStarts (b : List Bool) : List ℕ :=
  (if b.headD false then [0] else []) ++ transStartsAux b 0

/-- Run ends with the `np.r_[peak_ends, len(trace)-1]` fixup when the
trace ends below threshold. -/
def peakEnds (b : List Bool) : List ℕ :=
  transEndsAux b 0 ++ (if b.getLastD false then [b.length - 1] else [])

/-- `np.argmin` over a nonempty list: index of the first minimum.
`best`/`bestIdx` track the current minimum, `cur` the next index. -/
def argminIdxAux (best : ℚ) (bestIdx cur : ℕ) : List ℚ → ℕ
  | [] => bestIdx
  | x :: rest =>
    if x < best then argminIdxAux x cur (cur + 1) rest
    else argminIdxAux best bestIdx (cur + 1) rest

def argminIdx : List ℚ → ℕ
  | [] => 0
  | x :: rest => argminIdxAux x 0 1 rest

/-- `trace[s : e+1]`. -/
def sliceQ (trace : List ℚ) (s e : ℕ) : List ℚ :=
  (trace.drop s).take (e + 1 - s)

/-- The per-threshold body of the scan: the surviving-run count
(`n_peaks[i]`) and the surviving runs' event bins (`peak_bins[i]`). -/
def thrResult (trace times : List ℚ) (thrs : List ℚ) (i : ℕ) : ℕ × List ℤ :=
  let thr := thrs.getD i 0
  let b := belowMask trace thr
  let ps := peakStarts b
  let pe := peakEnds b
  if ps.isEmpty ∨ pe.isEmpty then (0, [])
  else
    let pairs := ps.zip pe
    let good1 := pairs.filter
      (fun p => decide (times.getD p.2 0 - times.getD p.1 0 < 1 / 6))
    if good1.isEmpty then (0, [])
    else
      let depthThr := thrs.getD (i - 2) 0
      let good2 := good1.filter
        (fun p => (sliceQ trace p.1 p.2).any (fun x => decide (x < depthThr)))
      if good2.isEmpty then (0, [])
      else
        (good2.length,
         good2.map (fun p =>
           let sl := sliceQ trace p.1 p.2
           if sl.isEmpty then (-1 : ℤ) else (p.1 : ℤ) + argminIdx sl))

/-- `n_peaks`: NaN (`none`) below threshold index 2, the surviving-run
count from there on. -/
def nPeaksRow (trace times : List ℚ) (thrs : List ℚ) : List (Option ℕ) :=
  (List.range thrs.length).map
    (fun i => if i < 2 then none else some (thrResult trace times thrs i).1)

/-- `peak_bins`: `None` below threshold index 2, the event bins from there
on. -/
def peakBinsTable (trace times : List ℚ) (thrs : List ℚ) : List (Option (List ℤ)) :=
  (List.range thrs.length).map
    (fun i => if i < 2 then none else some (thrResult trace times thrs i).2)

/-- `basic_algorithm`'s per-animal event bins: `none` models a `continue`
that records nothing for the animal (fewer than 4 distinct values, or an
all-NaN peak row). -/
def basicLickIndices (trace times : List ℚ) : Option (List ℤ) :=
  let u := uniqueVals trace
  if 3 < u.length then
    let thrs := thresholds u
    let row := nPeaksRow trace times thrs
    ((row.filterMap id).max?).bind (fun mx =>
      (row.findIdx? (fun o => o == some mx)).bind (fun i =>
        (peakBinsTable trace times thrs).getD i none))
  else none

lemma insertSorted_perm (x : ℚ) (l : List ℚ) : (insertSorted x l).Perm (x :: l) := by
  induction l with
  | nil => exact List.Perm.refl _
  | cons y ys ih =>
    simp only [insertSorted]
    by_cases h : x ≤ y
    · rw [if_pos h]
    · rw [if_neg h]
      exact (ih.cons y).trans (List.Perm.swap x y ys)

lemma sortQ_perm (l : List ℚ) : (sortQ l).Perm l := by
  induction l with
  | nil => exact List.Perm.refl _
  | cons x xs ih =>
    exact (insertSorted_perm x (sortQ xs)).trans (ih.cons x)

lemma uniqueVals_length (trace : List ℚ) :
    (uniqueVals trace).length = trace.dedup.length :=
  ((sortQ_perm trace).dedup).length_eq

/-- Claim C6: a trace with fewer than 4 distinct capacitance values makes
the threshold-scan algorithm record nothing for the animal (zero events,
no error), regardless of the trace's shape. -/
theorem C6_few_distinct_zero_events (trace times : List ℚ)
    (h : trace.dedup.length < 4) : basicLickIndices trace times = none := by
  unfold basicLickIndices
  rw [if_neg (by rw [uniqueVals_length]; omega)]

/-- Witness for C6: a trace with 3 distinct values records nothing. -/
theorem C6_few_distinct_zero_events_witness :
    (([5, 7, 5, 6] : List ℚ).dedup).length < 4 ∧
    basicLickIndices [5, 7, 5, 6] [0, 1, 2, 3] = none :=
  ⟨by decide, C6_few_distinct_zero_events [5, 7, 5, 6] [0, 1, 2, 3] (by decide)⟩

lemma transStartsAux_shift (l : List Bool) : ∀ j : ℕ,
    transStartsAux l (j + 1) = (transStartsAux l j).map (· + 1) := by
  induction l with
  | nil => intro j; rfl
  | cons x0 tail ih =>
    intro j
    cases tail with
    | nil => rfl
    | cons x1 rest =>
      show (if x1 = true ∧ x0 = false then [j + 1 + 1] else []) ++
          transStartsAux (x1 :: rest) (j + 1 + 1) = _
      rw [ih (j + 1)]
      by_cases h : x1 = true ∧ x0 = false
      · simp only [if_pos h]
        show _ = ((if x1 = true ∧ x0 = false then [j + 1] else []) ++
          transStartsAux (x1 :: rest) (j + 1)).map (· + 1)
        simp [h]
      · simp only [if_neg h]
        show _ = ((if x1 = true ∧ x0 = false then [j + 1] else []) ++
          transStartsAux (x1 :: rest) (j + 1)).map (· + 1)
        simp [h]

lemma transEndsAux_shift (l : List Bool) : ∀ j : ℕ,
    transEndsAux l (j + 1) = (transEndsAux l j).map (· + 1) := by
  induction l with
  | nil => intro j; rfl
  | cons x0 tail ih =>
    intro j
    cases tail with
    | nil => rfl
    | cons x1 rest =>
      show (if x0 = true ∧ x1 = false then [j + 1] else []) ++
          transEndsAux (x1 :: rest) (j + 1 + 1) = _
      rw [ih (j + 1)]
      by_cases h : x0 = true ∧ x1 = false
      · simp only [if_pos h]
        show _ = ((if x0 = true ∧ x1 = false then [j] else []) ++
          transEndsAux (x1 :: rest) (j + 1)).map (· + 1)
        simp [h]
      · simp only [if_neg h]
        show _ = ((if x0 = true ∧ x1 = false then [j] else []) ++
          transEndsAux (x1 :: rest) (j + 1)).map (· + 1)
        simp [h]

lemma peakStarts_false (rest : List Bool) :
    peakStarts (false :: rest) = (peakStarts rest).map (· + 1) := by
  cases rest with
  | nil => rfl
  | cons y r =>
    show (if (false :: y :: r).headD false then [0] else []) ++
        transStartsAux (false :: y :: r) 0 = _
    have hdef : transStartsAux (false :: y :: r) 0 =
        (if y = true ∧ false = false then [1] else []) ++ transStartsAux (y :: r) 1 := rfl
    rw [hdef, transStartsAux_shift]
    by_cases hy : y = true
    · simp [peakStarts, hy]
    · simp [peakStarts, hy]

lemma transStartsAux_true_true (r : List Bool) :
    transStartsAux (true :: true :: r) 0 = (transStartsAux (true :: r) 0).map (· + 1) := by
  have hdef : transStartsAux (true :: true :: r) 0 =
      (if true = true ∧ true = false then [1] else []) ++ transStartsAux (true :: r) 1 := rfl
  rw [hdef, transStartsAux_shift]
  simp

lemma transStartsAux_true_false (r : List Bool) :
    transStartsAux (true :: false :: r) 0 = (peakStarts (false :: r)).map (· + 1) := by
  have hdef : transStartsAux (true :: false :: r) 0 =
      (if false = true ∧ true = false then [1] else []) ++ transStartsAux (false :: r) 1 := rfl
  rw [hdef, transStartsAux_shift]
  simp [peakStarts]

lemma tailfix_shift (c : Bool) (n : ℕ) :
    (if c = true then [n + 1] else []) = (if c = true then [n] else []).map (· + 1) := by
  by_cases hc : c = true <;> simp [hc]

lemma peakEnds_false (rest : List Bool) :
    peakEnds (false :: rest) = (peakEnds rest).map (· + 1) := by
  cases rest with
  | nil => rfl
  | cons y r =>
    show transEndsAux (false :: y :: r) 0 ++
        (if (false :: y :: r).getLastD false then [(false :: y :: r).length - 1] else []) = _
    have hdef : transEndsAux (false :: y :: r) 0 =
        (if false = true ∧ y = false then [0] else []) ++ transEndsAux (y :: r) 1 := rfl
    rw [hdef, transEndsAux_shift]
    have hlast : (false :: y :: r).getLastD false = (y :: r).getLastD false := by
      simp [List.getLastD_cons]
    rw [hlast]
    show [] ++ _ ++ _ = _
    rw [List.nil_append]
    show _ = (transEndsAux (y :: r) 0 ++
        (if (y :: r).getLastD false then [(y :: r).length - 1] else [])).map (· + 1)
    rw [List.map_append]
    congr 1
    have h1 : (false :: y :: r).length - 1 = r.length + 1 := by simp
    have h2 : (y :: r).length - 1 = r.length := by simp
    rw [h1, h2]
    exact tailfix_shift _ r.length

lemma peakEnds_true_true (r : List Bool) :
    peakEnds (true :: true :: r) = (peakEnds (true :: r)).map (· + 1) := by
  show transEndsAux (true :: true :: r) 0 ++
      (if (true :: true :: r).getLastD false then [(true :: true :: r).length - 1] else []) = _
  have hdef : transEndsAux (true :: true :: r) 0 =
      (if true = true ∧ true = false then [0] else []) ++ transEndsAux (true :: r) 1 := rfl
  rw [hdef, transEndsAux_shift]
  have hlast : (true :: true :: r).getLastD false = (true :: r).getLastD false := by
    simp [List.getLastD_cons]
  rw [hlast]
  show [] ++ _ ++ _ = _
  rw [List.nil_append]
  show _ = (transEndsAux (true :: r) 0 ++
      (if (true :: r).getLastD false then [(true :: r).length - 1] else [])).map (· + 1)
  rw [List.map_append]
  congr 1
  have h1 : (true :: true :: r).length - 1 = r.length + 1 := by simp
  have h2 : (true :: r).length - 1 = r.length := by simp
  rw [h1, h2]
  exact tailfix_shift _ r.length

lemma peakEnds_true_false (r : List Bool) :
    peakEnds (true :: false :: r) = 0 :: (peakEnds (false :: r)).map (· + 1) := by
  show transEndsAux (true :: false :: r) 0 ++
      (if (true :: false :: r).getLastD false then [(true :: false :: r).length - 1] else []) = _
  have hdef : transEndsAux (true :: false :: r) 0 =
      (if true = true ∧ false = false then [0] else []) ++ transEndsAux (false :: r) 1 := rfl
  rw [hdef, transEndsAux_shift]
  have hlast : (true :: false :: r).getLastD false = (false :: r).getLastD false := by
    simp [List.getLastD_cons]
  rw [hlast]
  show [0] ++ _ ++ _ = _
  rw [List.singleton_append, List.cons_append]
  show _ = 0 :: (transEndsAux (false :: r) 0 ++
      (if (false :: r).getLastD false then [(false :: r).length - 1] else [])).map (· + 1)
  rw [List.map_append]
  congr 2
  have h1 : (true :: false :: r).length - 1 = r.length + 1 := by simp
  have h2 : (false :: r).length - 1 = r.length := by simp
  rw [h1, h2]
  exact tailfix_shift _ r.length

/-- The zipped run list is well-formed: starts and ends align
(`zip` never truncates since both lists have one entry per maximal
below-threshold run), each run satisfies `start ≤ end < length`, and runs
are disjoint and ordered (`end < next start`). -/
lemma peakPairs_spec (b : List Bool) :
    (peakStarts b).length = (peakEnds b).length ∧
    (∀ p ∈ (peakStarts b).zip (peakEnds b), p.1 ≤ p.2 ∧ p.2 < b.length) ∧
    ((peakStarts b).zip (peakEnds b)).Pairwise
      (fun p q : ℕ × ℕ => p.2 < q.1) := by
  induction b with
  | nil => exact ⟨rfl, by simp [peakStarts, peakEnds, transStartsAux, transEndsAux], by
      simp [peakStarts, peakEnds, transStartsAux, transEndsAux]⟩
  | cons x rest ih =>
    obtain ⟨ihlen, ihmem, ihpw⟩ := ih
    cases x with
    | false =>
      rw [peakStarts_false, peakEnds_false, List.zip_map]
      refine ⟨by simp [ihlen], ?_, ?_⟩
      · intro p hp
        obtain ⟨q, hq, rfl⟩ := List.mem_map.mp hp
        obtain ⟨h1, h2⟩ := ihmem q hq
        exact ⟨by simp [Prod.map]; omega, by simp [Prod.map, List.length_cons]; omega⟩
      · rw [List.pairwise_map]
        refine ihpw.imp ?_
        intro p q h
        simp only [Prod.map]
        simp only [Prod.snd, Prod.fst] at *
        omega
    | true =>
      cases rest with
      | nil =>
        refine ⟨rfl, ?_, ?_⟩
        · intro p hp
          have : p = (0, 0) := by
            simpa [peakStarts, peakEnds, transStartsAux, transEndsAux] using hp
          subst this
          exact ⟨le_refl 0, by simp⟩
        · have : (peakStarts [true]).zip (peakEnds [true]) = [(0, 0)] := by
            simp [peakStarts, peakEnds, transStartsAux, transEndsAux]
          rw [this]
          exact List.pairwise_singleton _ _
      | cons y r =>
        cases y with
        | true =>
          have hs : peakStarts (true :: true :: r) =
              0 :: (transStartsAux (true :: r) 0).map (· + 1) := by
            show [0] ++ transStartsAux (true :: true :: r) 0 = _
            rw [transStartsAux_true_true]
            rfl
          have hs' : peakStarts (true :: r) = 0 :: transStartsAux (true :: r) 0 := rfl
          have he := peakEnds_true_true r
          rw [hs, he]
          rw [hs'] at ihlen ihmem ihpw
          obtain ⟨e0, es', hE⟩ : ∃ e0 es', peakEnds (true :: r) = e0 :: es' := by
            cases hE : peakEnds (true :: r) with
            | nil => rw [hE] at ihlen; simp at ihlen
            | cons e0 es' => exact ⟨e0, es', rfl⟩
          rw [hE] at ihlen ihmem ihpw ⊢
          rw [List.map_cons, List.zip_cons_cons, List.zip_map]
          rw [List.zip_cons_cons] at ihmem ihpw
          have hlen2 : (transStartsAux (true :: r) 0).length = es'.length := by
            simpa using ihlen
          refine ⟨by simpa using hlen2, ?_, ?_⟩
          · intro p hp
            rcases List.mem_cons.mp hp with rfl | hp'
            · have h0 := ihmem (0, e0) (List.mem_cons_self _ _)
              exact ⟨by omega, by simp only [List.length_cons] at *; omega⟩
            · obtain ⟨q, hq, rfl⟩ := List.mem_map.mp hp'
              obtain ⟨h1, h2⟩ := ihmem q (List.mem_cons_of_mem _ hq)
              exact ⟨by simp [Prod.map]; omega,
                by simp only [Prod.map, List.length_cons] at *; simp; omega⟩
          · refine List.pairwise_cons.mpr ⟨?_, ?_⟩
            · intro p hp
              obtain ⟨q, hq, rfl⟩ := List.mem_map.mp hp
              obtain ⟨q1, q2⟩ := q
              have h1 : e0 < q1 := (List.pairwise_cons.mp ihpw).1 (q1, q2) hq
              show e0 + 1 < q1 + 1
              omega
            · rw [List.pairwise_map]
              refine ((List.pairwise_cons.mp ihpw).2).imp ?_
              intro p q h
              obtain ⟨p1, p2⟩ := p
              obtain ⟨q1, q2⟩ := q
              have h1 : p2 < q1 := h
              show p2 + 1 < q1 + 1
              omega
        | false =>
          have hs : peakStarts (true :: false :: r) =
              0 :: (peakStarts (false :: r)).map (· + 1) := by
            show [0] ++ transStartsAux (true :: false :: r) 0 = _
            rw [transStartsAux_true_false]
            rfl
          have he := peakEnds_true_false r
          rw [hs, he, List.zip_cons_cons, List.zip_map]
          refine ⟨by simp [ihlen], ?_, ?_⟩
          · intro p hp
            rcases List.mem_cons.mp hp with rfl | hp'
            · exact ⟨le_refl 0, by simp⟩
            · obtain ⟨q, hq, rfl⟩ := List.mem_map.mp hp'
              obtain ⟨h1, h2⟩ := ihmem q hq
              exact ⟨by simp [Prod.map]; omega,
                by simp only [Prod.map, List.length_cons] at *; simp; omega⟩
          · refine List.pairwise_cons.mpr ⟨?_, ?_⟩
            · intro p hp
              obtain ⟨q, hq, rfl⟩ := List.mem_map.mp hp
              obtain ⟨q1, q2⟩ := q
              show 0 < q1 + 1
              omega
            · rw [List.pairwise_map]
              refine ihpw.imp ?_
              intro p q h
              obtain ⟨p1, p2⟩ := p
              obtain ⟨q1, q2⟩ := q
              have h1 : p2 < q1 := h
              show p2 + 1 < q1 + 1
              omega

lemma argminIdxAux_cases (rest : List ℚ) : ∀ (best : ℚ) (bi cur : ℕ),
    argminIdxAux best bi cur rest = bi ∨
    (cur ≤ argminIdxAux best bi cur rest ∧
      argminIdxAux best bi cur rest < cur + rest.length) := by
  induction rest with
  | nil => intro best bi cur; left; rfl
  | cons x rest ih =>
    intro best bi cur
    simp only [argminIdxAux]
    by_cases h : x < best
    · rw [if_pos h]
      rcases ih x cur (cur + 1) with h1 | ⟨h1, h2⟩
      · right
        rw [h1]
        simp only [List.length_cons]
        omega
      · right
        simp only [List.length_cons]
        omega
    · rw [if_neg h]
      rcases ih best bi (cur + 1) with h1 | ⟨h1, h2⟩
      · left; exact h1
      · right
        simp only [List.length_cons]
        omega

/-- `np.argmin` returns a valid index. -/
lemma argminIdx_lt_length (l : List ℚ) (h : l ≠ []) : argminIdx l < l.length := by
  cases l with
  | nil => exact absurd rfl h
  | cons x rest =>
    show argminIdxAux x 0 1 rest < (x :: rest).length
    simp only [List.length_cons]
    rcases argminIdxAux_cases rest x 0 1 with h1 | ⟨h1, h2⟩
    · rw [h1]; omega
    · omega

lemma sliceQ_length (trace : List ℚ) (s e : ℕ) :
    (sliceQ trace s e).length = min (e + 1 - s) (trace.length - s) := by
  simp [sliceQ]

lemma belowMask_length (trace : List ℚ) (thr : ℚ) :
    (belowMask trace thr).length = trace.length := List.length_map _ _

/-- Each threshold's surviving-run bins are strictly increasing. -/
lemma thrResult_bins_sorted (trace times : List ℚ) (thrs : List ℚ) (i : ℕ) :
    ((thrResult trace times thrs i).2).Pairwise (fun a b : ℤ => a < b) := by
  obtain ⟨hlen, hmem, hpw⟩ := peakPairs_spec (belowMask trace (thrs.getD i 0))
  simp only [thrResult]
  split
  · exact List.Pairwise.nil
  · split
    · exact List.Pairwise.nil
    · split
      · exact List.Pairwise.nil
      · show (List.map _ _).Pairwise _
        refine List.pairwise_map.mpr ?_
        refine List.Pairwise.imp_of_mem ?_ ((hpw.filter _).filter _)
        intro p q hp hq hrel
        have hpz := hmem p (List.mem_of_mem_filter (List.mem_of_mem_filter hp))
        have hqz := hmem q (List.mem_of_mem_filter (List.mem_of_mem_filter hq))
        rw [belowMask_length] at hpz hqz
        have hple : (sliceQ trace p.1 p.2).length = min (p.2 + 1 - p.1) (trace.length - p.1) :=
          sliceQ_length trace p.1 p.2
        have hqle : (sliceQ trace q.1 q.2).length = min (q.2 + 1 - q.1) (trace.length - q.1) :=
          sliceQ_length trace q.1 q.2
        have hpne : ¬ (sliceQ trace p.1 p.2).isEmpty = true := by
          rw [List.isEmpty_iff_length_eq_zero, hple]
          omega
        have hqne : ¬ (sliceQ trace q.1 q.2).isEmpty = true := by
          rw [List.isEmpty_iff_length_eq_zero, hqle]
          omega
        rw [if_neg hpne, if_neg hqne]
        have hpargmin : argminIdx (sliceQ trace p.1 p.2) < (sliceQ trace p.1 p.2).length :=
          argminIdx_lt_length _ (by
            intro hnil
            exact hpne (by rw [hnil]; rfl))
        rw [hple] at hpargmin
        omega
  -- the `-1` sentinel of `temp_peak_bins` is unreachable: every surviving
  -- run has `start ≤ end < len(trace)`, so its slice is nonempty

/-- The threshold-scan output is strictly increasing whenever the
algorithm records one. -/
lemma basicLickIndices_sorted (trace times : List ℚ) (l : List ℤ)
    (h : basicLickIndices trace times = some l) :
    l.Pairwise (fun a b : ℤ => a < b) := by
  unfold basicLickIndices at h
  by_cases hu : 3 < (uniqueVals trace).length
  · rw [if_pos hu] at h
    dsimp only at h
    cases hmx : ((nPeaksRow trace times (thresholds (uniqueVals trace))).filterMap id).max? with
    | none => rw [hmx] at h; cases h
    | some mx =>
      rw [hmx, Option.some_bind] at h
      cases hidx : (nPeaksRow trace times (thresholds (uniqueVals trace))).findIdx?
          (fun o => o == some mx) with
      | none => rw [hidx] at h; cases h
      | some i =>
        rw [hidx, Option.some_bind] at h
        by_cases hin : i < (thresholds (uniqueVals trace)).length
        · have hg : (peakBinsTable trace times (thresholds (uniqueVals trace))).getD i none =
              (if i < 2 then none
               else some (thrResult trace times (thresholds (uniqueVals trace)) i).2) := by
            rw [List.getD_eq_getElem _ _ (by simp [peakBinsTable, hin])]
            simp only [peakBinsTable, List.getElem_map, List.getElem_range]
          rw [hg] at h
          by_cases hi2 : i < 2
          · rw [if_pos hi2] at h; cases h
          · rw [if_neg hi2] at h
            obtain rfl := (Option.some.injEq _ _).mp h.symm
            exact thrResult_bins_sorted trace times _ i
        · rw [List.getD_eq_default _ _ (by simp [peakBinsTable]; omega)] at h
          cases h
  · rw [if_neg hu] at h; cases h

/-- Claim C9: every event-index list either detection algorithm records is
strictly increasing (events are ordered by time and never overlap).  The
option's content is `[]` when nothing is recorded for the animal, which is
trivially increasing. -/
theorem C9_lick_indices_strictly_increasing :
    (∀ trace times : List ℚ,
      ((basicLickIndices trace times).getD []).Pairwise (fun a b : ℤ => a < b)) ∧
    (∀ (trace env : List ℚ) (fs : ℚ),
      ((hilbertLickIndices trace env fs).getD []).Pairwise (fun a b : ℤ => a < b)) := by
  constructor
  · intro trace times
    cases h : basicLickIndices trace times with
    | none => exact List.Pairwise.nil
    | some l => exact basicLickIndices_sorted trace times l h
  · intro trace env fs
    cases h : hilbertLickIndices trace env fs with
    | none => exact List.Pairwise.nil
    | some l => exact hilbertLickIndices_sorted trace env fs l h

/-! ## Recording-window resolution (`filter_data`, lines 41-64)

For each sensor, `filter_data` scans the group's dataset names with the
regex `^start_time(\d+)?$` (bare name → cycle number −1, suffixed name →
its number), collects them in a dict keyed by that number, takes the
highest number, reads the matching start time, tries the corresponding
`stop_time*` (falling back to the final recorded timestamp on `KeyError`),
and — when no start-time field exists at all — warns and uses the whole
trace.  Metadata fields are the association list `fields`; the warning is
the `Bool` in the result; `none` models an uncaught indexing error
(impossible for nonempty `timeData`). -/

/-- Character-list prefix test (the anchored prefix of the regex). -/
def isPrefixOfChars : List Char → List Char → Bool
  | [], _ => true
  | _ :: _, [] => false
  | c :: cs, d :: ds => c == d && isPrefixOfChars cs ds

/-- `int(...)` on a digit string. -/
def digitsVal (s : List Char) : ℤ :=
  ((s.foldl (fun a c => 10 * a + (c.toNat - 48)) 0 : ℕ) : ℤ)

/-- The regex match `^start_time(\d+)?$`: `some (-1)` for the bare name
(`num = -1` in the code), `some n` for suffix `n`, `none` otherwise. -/
def parseStartKey (k : String) : Option ℤ :=
  if isPrefixOfChars "start_time".data k.data then
    let suffix := k.data.drop 10
    if suffix.isEmpty then some (-1)
    else if suffix.all (fun c => c.isDigit) then some (digitsVal suffix) else none
  else none

/-- Python dict assignment `matches[num] = k`. -/
def insertMatch (acc : List (ℤ × String)) (n : ℤ) (k : String) :
    List (ℤ × String) :=
  if (acc.lookup n).isSome then acc.map (fun p => if p.1 = n then (n, k) else p)
  else acc ++ [(n, k)]

/-- The `matches` dict built by scanning the keys in order. -/
def buildMatches (keys : List String) : List (ℤ × String) :=
  keys.foldl (fun acc k =>
    match parseStartKey k with
    | none => acc
    | some n => insertMatch acc n k) []

/-- `num = -inf; for n in matches.keys(): if n > num: num = n`. -/
def maxMatchNum (ms : List (ℤ × String)) : Option ℤ :=
  ms.foldl (fun best p =>
    match best with
    | none => some p.1
    | some b => if b < p.1 then some p.1 else some b) none

/-- `'stop' + last_start[5:]`. -/
def stopKeyOf (k : String) : String := "stop" ++ String.mk (k.data.drop 5)

/-- The window-resolution step of `filter_data` for one sensor: the
resolved `(start_time, stop_time, warned)`. -/
def resolveWindow (fields : List (String × ℚ)) (timeData : List ℚ) :
    Option (ℚ × ℚ × Bool) :=
  let ms := buildMatches (fields.map Prod.fst)
  if ms.isEmpty then
    -- no start time recorded: warn, default to the entire trace
    (timeData.head?).bind (fun t0 =>
      (timeData.getLast?).map (fun tN => (t0, tN, true)))
  else
    (maxMatchNum ms).bind (fun n =>
      (ms.lookup n).bind (fun lastStart =>
        (fields.lookup lastStart).bind (fun startTime =>
          (fields.lookup (stopKeyOf lastStart)).elim
            -- KeyError: stop time wasn't recorded, use the final timestamp
            ((timeData.getLast?).map (fun tN => (startTime, tN, false)))
            (fun stopTime => some (startTime, stopTime, false)))))

/-- The start-time fields as `(parsed number, key)` pairs, in field
order. -/
def startMatches (fields : List (String × ℚ)) : List (ℤ × String) :=
  (fields.map Prod.fst).filterMap (fun k => (parseStartKey k).map (fun n => (n, k)))

lemma lookup_eq_none_of_not_mem (l : List (ℤ × String)) (n : ℤ)
    (h : n ∉ l.map Prod.fst) : l.lookup n = none := by
  induction l with
  | nil => rfl
  | cons p l ih =>
    have hne : ¬ n = p.1 := fun he => h (by simp [he])
    have : (n == p.1) = false := by simp [hne]
    obtain ⟨a, b⟩ := p
    simp only [List.lookup_cons]
    simp only at this
    rw [this]
    exact ih (fun hm => h (by simp at hm ⊢; tauto))

lemma lookup_of_mem_of_nodup (l : List (ℤ × String)) (n : ℤ) (k : String)
    (hnd : (l.map Prod.fst).Nodup) (hm : (n, k) ∈ l) : l.lookup n = some k := by
  induction l with
  | nil => cases hm
  | cons p l ih =>
    obtain ⟨a, b⟩ := p
    rcases List.mem_cons.mp hm with he | hm'
    · obtain ⟨rfl, rfl⟩ := Prod.mk.injEq _ _ _ _ ▸ he
      simp [List.lookup_cons]
    · have hna : ¬ n = a := by
        intro rfl0
        subst rfl0
        have : n ∈ l.map Prod.fst := List.mem_map.mpr ⟨(n, k), hm', rfl⟩
        exact (List.nodup_cons.mp (by simpa using hnd)).1 this
      have hbeq : (n == a) = false := by simp [hna]
      simp only [List.lookup_cons, hbeq]
      exact ih (List.nodup_cons.mp (by simpa using hnd)).2 hm'

lemma buildMatches_aux (keys : List String) : ∀ acc : List (ℤ × String),
    ((acc ++ keys.filterMap
      (fun k => (parseStartKey k).map (fun n => (n, k)))).map Prod.fst).Nodup →
    keys.foldl (fun acc k =>
      match parseStartKey k with
      | none => acc
      | some n => insertMatch acc n k) acc =
    acc ++ keys.filterMap (fun k => (parseStartKey k).map (fun n => (n, k))) := by
  induction keys with
  | nil => intro acc _; simp
  | cons k ks ih =>
    intro acc hnd
    simp only [List.foldl_cons]
    cases hp : parseStartKey k with
    | none =>
      have hf : (parseStartKey k).map (fun n => (n, k)) = none := by rw [hp]; rfl
      rw [List.filterMap_cons_none
        (f := fun s => (parseStartKey s).map (fun m => (m, s))) hf] at hnd ⊢
      exact ih acc hnd
    | some n =>
      have hf : (parseStartKey k).map (fun n => (n, k)) = some (n, k) := by rw [hp]; rfl
      rw [List.filterMap_cons_some
        (f := fun s => (parseStartKey s).map (fun m => (m, s))) hf] at hnd ⊢
      have hgoal : (match (some n : Option ℤ) with
          | none => acc
          | some m => insertMatch acc m k) = insertMatch acc n k := rfl
      rw [hgoal]
      have hnin : n ∉ acc.map Prod.fst := by
        rw [List.map_append] at hnd
        intro hmem
        exact (List.nodup_append.mp hnd).2.2 hmem (by simp)
      have hins : insertMatch acc n k = acc ++ [(n, k)] := by
        unfold insertMatch
        rw [lookup_eq_none_of_not_mem acc n hnin]
        rfl
      rw [hins]
      have hre : (acc ++ [(n, k)]) ++ ks.filterMap
          (fun k => (parseStartKey k).map (fun n => (n, k))) =
          acc ++ (n, k) :: ks.filterMap
            (fun k => (parseStartKey k).map (fun n => (n, k))) := by
        simp
      rw [ih (acc ++ [(n, k)]) (by rw [hre]; exact hnd), hre]

lemma buildMatches_eq (fields : List (String × ℚ))
    (hmn : ((startMatches fields).map Prod.fst).Nodup) :
    buildMatches (fields.map Prod.fst) = startMatches fields := by
  have := buildMatches_aux (fields.map Prod.fst) [] (by simpa [startMatches] using hmn)
  simpa [buildMatches, startMatches] using this

lemma maxMatchNum_aux (ms : List (ℤ × String)) : ∀ b : ℤ,
    ∃ n, ms.foldl (fun best p =>
        match best with
        | none => some p.1
        | some b => if b < p.1 then some p.1 else some b) (some b) = some n ∧
      (n = b ∨ n ∈ ms.map Prod.fst) ∧ b ≤ n ∧ ∀ q ∈ ms, q.1 ≤ n := by
  induction ms with
  | nil => exact fun b => ⟨b, rfl, Or.inl rfl, le_refl b, by simp⟩
  | cons p ms ih =>
    intro b
    simp only [List.foldl_cons]
    by_cases h : b < p.1
    · rw [if_pos h]
      obtain ⟨n, h1, h2, h3, h4⟩ := ih p.1
      refine ⟨n, h1, ?_, by omega, ?_⟩
      · rcases h2 with rfl | h2
        · exact Or.inr (by simp)
        · exact Or.inr (by simp [h2])
      · intro q hq
        rcases List.mem_cons.mp hq with rfl | hq'
        · omega
        · exact h4 q hq'
    · rw [if_neg h]
      obtain ⟨n, h1, h2, h3, h4⟩ := ih b
      refine ⟨n, h1, ?_, h3, ?_⟩
      · rcases h2 with rfl | h2
        · exact Or.inl rfl
        · exact Or.inr (by simp [h2])
      · intro q hq
        rcases List.mem_cons.mp hq with rfl | hq'
        · omega
        · exact h4 q hq'

lemma maxMatchNum_spec (ms : List (ℤ × String)) (hne : ms ≠ []) :
    ∃ n, maxMatchNum ms = some n ∧ n ∈ ms.map Prod.fst ∧ ∀ q ∈ ms, q.1 ≤ n := by
  cases ms with
  | nil => exact absurd rfl hne
  | cons p ms =>
    obtain ⟨n, h1, h2, h3, h4⟩ := maxMatchNum_aux ms p.1
    refine ⟨n, h1, ?_, ?_⟩
    · rcases h2 with rfl | h2
      · simp
      · simp [h2]
    · intro q hq
      rcases List.mem_cons.mp hq with rfl | hq'
      · exact h3
      · exact h4 q hq'

/-- Claim C3: window resolution.  With distinct field names and distinct
parsed cycle numbers (true of any real HDF5 group), (a) when no
`start_time*` field exists the whole trace is used and the warning is
emitted; (b) when start fields exist, the one with the highest parsed
number supplies the start time, and the stop time is the matching
`stop_time*` field when present, else the final recorded timestamp —
without failing in either case. -/
theorem C3_window_resolution (fields : List (String × ℚ)) (timeData : List ℚ)
    (hmn : ((startMatches fields).map Prod.fst).Nodup) :
    (startMatches fields = [] →
      ∀ t0 tN, timeData.head? = some t0 → timeData.getLast? = some tN →
        resolveWindow fields timeData = some (t0, tN, true)) ∧
    (∀ n k v, (n, k) ∈ startMatches fields →
      (∀ q ∈ startMatches fields, q.1 ≤ n) →
      fields.lookup k = some v →
      ((∀ sv, fields.lookup (stopKeyOf k) = some sv →
          resolveWindow fields timeData = some (v, sv, false)) ∧
       (fields.lookup (stopKeyOf k) = none →
        ∀ tN, timeData.getLast? = some tN →
          resolveWindow fields timeData = some (v, tN, false)))) := by
  have hms : buildMatches (fields.map Prod.fst) = startMatches fields :=
    buildMatches_eq fields hmn
  constructor
  · intro hempty t0 tN h0 hN
    simp only [resolveWindow]
    rw [hms, hempty]
    rw [if_pos (show ([] : List (ℤ × String)).isEmpty = true from rfl), h0,
      Option.some_bind, hN]
    rfl
  · intro n k v hmem hmax hlkv
    have hne : startMatches fields ≠ [] := by
      intro he
      rw [he] at hmem
      cases hmem
    have hnotempty : ¬ (startMatches fields).isEmpty = true := by
      rw [List.isEmpty_iff]
      exact hne
    obtain ⟨n', h1, h2, h3⟩ := maxMatchNum_spec (startMatches fields) hne
    have hnn : n' = n := by
      obtain ⟨q, hq, hqe⟩ := List.mem_map.mp h2
      have ha : n' ≤ n := hqe ▸ hmax q hq
      have hb : n ≤ n' := h3 (n, k) hmem
      omega
    subst hnn
    have hlook : (startMatches fields).lookup n' = some k :=
      lookup_of_mem_of_nodup _ _ _ hmn hmem
    constructor
    · intro sv hsv
      simp only [resolveWindow]
      rw [hms, if_neg hnotempty, h1, Option.some_bind, hlook, Option.some_bind,
        hlkv, Option.some_bind, hsv]
      rfl
    · intro hnone tN hN
      simp only [resolveWindow]
      rw [hms, if_neg hnotempty, h1, Option.some_bind, hlook, Option.some_bind,
        hlkv, Option.some_bind, hnone]
      show (timeData.getLast?).map _ = _
      rw [hN]
      rfl

/-- Witness for C3 on two concrete sensor groups: one with
`start_time` (cycle −1) and `start_time2` (cycle 2, no matching stop — the
final timestamp is substituted), and one with no start-time field at all
(whole trace, warning). -/
theorem C3_window_resolution_witness :
    ((startMatches [("start_time", (5 : ℚ)), ("start_time2", 7), ("weight", 30)]).map
        Prod.fst).Nodup ∧
    resolveWindow [("start_time", (5 : ℚ)), ("start_time2", 7), ("weight", 30)]
      [1, 2, 3] = some (7, 3, false) ∧
    resolveWindow [("weight", (30 : ℚ))] [1, 2, 3] = some (1, 3, true) := by
  refine ⟨by decide, ?_, ?_⟩
  · exact ((C3_window_resolution
      [("start_time", (5 : ℚ)), ("start_time2", 7), ("weight", 30)] [1, 2, 3]
      (by decide)).2 2 "start_time2" 7 (by decide) (by decide) (by decide)).2
      (by decide) 3 (by decide)
  · exact (C3_window_resolution [("weight", (30 : ℚ))] [1, 2, 3]
      (by decide)).1 (by decide) 1 3 (by decide) (by decide)

/-! ## Concrete end-to-end evaluations of the two detectors

Sanity checks that the embeddings compute: a trace with four distinct
values and one deep short dip yields exactly that dip for the
threshold-scan; three well-separated drops under a permissive envelope
yield three events for the envelope algorithm. -/

lemma basicLickIndices_example :
    basicLickIndices [6, 0, 6, 4, 6, 2] [0, 1, 2, 3, 4, 5] = some [1] := by
  have h1 : uniqueVals [6, 0, 6, 4, 6, 2] = [0, 2, 4, 6] := by
    norm_num [uniqueVals, sortQ, insertSorted, List.dedup]
  have h2 : thresholds [0, 2, 4, 6] = [1, 3, 5] := by
    norm_num [thresholds]
  have h3 : thrResult [6, 0, 6, 4, 6, 2] [0, 1, 2, 3, 4, 5] [1, 3, 5] 2 =
      (1, [1]) := by
    norm_num [thrResult, belowMask, peakStarts, peakEnds, transStartsAux, transEndsAux,
      sliceQ, argminIdx, argminIdxAux]
  have hrow : nPeaksRow [6, 0, 6, 4, 6, 2] [0, 1, 2, 3, 4, 5] [1, 3, 5] =
      [none, none, some 1] := by
    rw [nPeaksRow, show ([(1 : ℚ), 3, 5].length) = 3 by rfl,
      show List.range 3 = [0, 1, 2] from rfl]
    simp [h3]
  have htab : peakBinsTable [6, 0, 6, 4, 6, 2] [0, 1, 2, 3, 4, 5] [1, 3, 5] =
      [none, none, some [1]] := by
    rw [peakBinsTable, show ([(1 : ℚ), 3, 5].length) = 3 by rfl,
      show List.range 3 = [0, 1, 2] from rfl]
    simp [h3]
  unfold basicLickIndices
  rw [h1]
  rw [if_pos (by norm_num), h2]
  dsimp only
  rw [hrow, htab]
  decide

lemma hilbertLickIndices_example :
    hilbertLickIndices
      [100, 100, 100, 100, 100, 100, 100, 100, 100, 100, 0,
       100, 100, 100, 100, 100, 100, 100, 100, 100, 0,
       100, 100, 100, 100, 100, 100, 100, 100, 100, 0]
      (List.replicate 31 1) 100 = some [10, 20, 30] := by
  have hg : ∀ m : ℕ, m < 31 → (List.replicate 31 (1 : ℚ)).getD m 0 = 1 := by
    intro m hm
    rw [List.getD_eq_getElem _ _ (by simpa using hm)]
    rw [List.getElem_replicate]
  have hdowns : downs
      [100, 100, 100, 100, 100, 100, 100, 100, 100, 100, 0,
       100, 100, 100, 100, 100, 100, 100, 100, 100, 0,
       100, 100, 100, 100, 100, 100, 100, 100, 100, 0] = [10, 20, 30] := by
    norm_num [downs, downsAux]
  have hl : listMax (List.replicate 31 (1 : ℚ)) = 1 := by
    norm_num [listMax, List.replicate]
  have hcand : hilbertCandidates
      [100, 100, 100, 100, 100, 100, 100, 100, 100, 100, 0,
       100, 100, 100, 100, 100, 100, 100, 100, 100, 0,
       100, 100, 100, 100, 100, 100, 100, 100, 100, 0]
      (List.replicate 31 1) = [10, 20, 30] := by
    unfold hilbertCandidates envThreshold
    rw [hdowns, hl]
    norm_num [hg 10 (by norm_num), hg 20 (by norm_num), hg 30 (by norm_num),
      show Int.toNat 10 = 10 from rfl, show Int.toNat 20 = 20 from rfl,
      show Int.toNat 30 = 30 from rfl]
  have hmin : minLickDist 100 = 8 := by
    rw [minLickDist, show (2 / 25 : ℚ) * 100 = 8 by norm_num]
    show Int.tdiv (8 : ℚ).num (8 : ℚ).den = 8
    rw [Rat.num_ofNat, Rat.den_ofNat]
    decide
  have hmax : maxLickSep 100 = 50 := by
    rw [maxLickSep, show (1 / 2 : ℚ) * 100 = 50 by norm_num]
    show Int.tdiv (50 : ℚ).num (50 : ℚ).den = 50
    rw [Rat.num_ofNat, Rat.den_ofNat]
    decide
  unfold hilbertLickIndices
  rw [hcand, hmin, hmax]
  decide
